import Mathlib

/-!
# Verification of the chinadatahub ETL pipeline

Shallow embedding of the three near-duplicate ETL flows of the repository
(`app.py` — subheading imports/exports engine, `appexport.py` — exports-only
engine, `appcuode.py` — end-use/CUODE engine) together with proofs about the
spec claims.

Modelling conventions:
* Spreadsheet cells are modelled by `Cell`: a missing cell (`NaN` in pandas)
  is `Cell.na`, a text cell is `Cell.s`, and a numeric cell produced by
  `pd.to_numeric(...).fillna(0)` is `Cell.n` carrying a rational.
* Python strings are Lean `String`s; character-level operations (strip,
  lower, zfill, the NFD-decompose-and-drop-marks step of `norm`) are defined
  on `List Char`.  The Unicode lowering/accent-folding tables are restricted
  to the accented Latin letters that occur in this codebase's vocabulary
  (the Spanish vowels and ñ/ü); all other characters are left unchanged,
  which matches `unicodedata` on the relevant alphabet.
* The regular-expression searches of the sources
  (`(\d{4})\s*/\s*(\d{2})`, `(\d{4})\s*/\s*(\d{1,2})`, `(\d{4})`,
  `\(.*?\)`, anchored literal prefixes, `\s+`) are implemented as
  left-to-right leftmost-match scanners, which is exactly `re.search` /
  `re.sub` semantics for these patterns (none of them backtracks
  non-trivially).
* Monetary values are rationals; `round(x, 2)` is modelled as
  round-half-to-even of `100·x` divided by `100` (Python's banker rounding,
  ignoring binary floating point representation error).
* Filesystem effects are modelled by explicit state records mapping year
  file names and summary files to their JSON contents; persisted JSON
  objects are association lists of key/value pairs mirroring the dict
  literals of the sources.
-/

/-! ## Python character / string primitives -/

/-- The characters Python's `str.strip` / `\s` treat as whitespace
(ASCII fragment). -/
def isPySpace (c : Char) : Bool :=
  c == ' ' || c == '\t' || c == '\n' || c == '\r' || c == '\x0b' || c == '\x0c'

/-- `str.strip()` on a character list: drop whitespace from both ends. -/
def pyStrip (l : List Char) : List Char :=
  ((l.dropWhile isPySpace).reverse.dropWhile isPySpace).reverse

/-- `str.strip()` on a `String`. -/
def pyStripS (s : String) : String := ⟨pyStrip s.data⟩

/-- `str.lower()` restricted to ASCII letters and the accented letters used
by the sources. -/
def pyLowerChar (c : Char) : Char :=
  if 'A' ≤ c ∧ c ≤ 'Z' then Char.ofNat (c.toNat + 32)
  else match c with
  | 'Á' => 'á' | 'É' => 'é' | 'Í' => 'í' | 'Ó' => 'ó' | 'Ú' => 'ú'
  | 'Ñ' => 'ñ' | 'Ü' => 'ü'
  | _ => c

/-- `str.upper()` restricted to the same alphabet. -/
def pyUpperChar (c : Char) : Char :=
  if 'a' ≤ c ∧ c ≤ 'z' then Char.ofNat (c.toNat - 32)
  else match c with
  | 'á' => 'Á' | 'é' => 'É' | 'í' => 'Í' | 'ó' => 'Ó' | 'ú' => 'Ú'
  | 'ñ' => 'Ñ' | 'ü' => 'Ü'
  | _ => c

/-- The `unicodedata.normalize("NFD", ·)` + drop-combining-marks step of
`norm`, as a character fold on the accented letters of this codebase. -/
def accentFold (c : Char) : Char :=
  match c with
  | 'á' => 'a' | 'é' => 'e' | 'í' => 'i' | 'ó' => 'o' | 'ú' => 'u'
  | 'ñ' => 'n' | 'ü' => 'u'
  | _ => c

/-- Scanner for `re.sub(r"\s+", " ", ·)`: the flag records whether the
scanner is inside a whitespace run (whose first character already emitted
the single replacement space). -/
def collapseAux : Bool → List Char → List Char
  | _, [] => []
  | inRun, c :: rest =>
    if isPySpace c then
      (if inRun then [] else [' ']) ++ collapseAux true rest
    else c :: collapseAux false rest

/-- `re.sub(r"\s+", " ", ·)`: replace each maximal whitespace run by a
single space. -/
def collapseWS (l : List Char) : List Char := collapseAux false l

/-- `norm` (identical in all three sources): strip, lower-case, decompose
and drop diacritic marks, collapse whitespace runs. -/
def norm (s : String) : String :=
  ⟨collapseWS ((pyStrip s.data).map (fun c => accentFold (pyLowerChar c)))⟩

/-! ## Cells -/

/-- One spreadsheet / dataframe cell. -/
inductive Cell where
  | na
  | s (v : String)
  | n (v : ℚ)
deriving DecidableEq

/-- Python `str(x)` of a cell (pandas renders a missing cell as `nan`;
numeric cells only arise after coercion and never flow back into textual
operations in the sources). -/
def cellStr : Cell → String
  | .na => "nan"
  | .s v => v
  | .n v => toString v

/-! ## HeaderLocator (`find_header_row`) -/

/-- Does a raw row contain both anchor tokens after normalization?
This is the loop body condition
`"codigo subpartida" in row and "periodo" in row` of `find_header_row`. -/
def hasAnchorTokens (row : List Cell) : Bool :=
  let r := row.map (fun c => norm (cellStr c))
  r.contains "codigo subpartida" && r.contains "periodo"

/-- Index of the first row satisfying `hasAnchorTokens`
(the `for i in range(len(preview))` loop). -/
def findHeaderIdx : List (List Cell) → Option Nat
  | [] => none
  | r :: rs =>
    if hasAnchorTokens r then some 0 else (findHeaderIdx rs).map (· + 1)

/-- `find_header_row(filepath, max_rows)`: the preview reads at most
`max_rows` rows (`nrows=max_rows`), then the first matching row index is
returned, else `None`.  `app.py`/`appexport.py` call it with the default
bound 40, `appcuode.py` with 80. -/
def find_header_row (rows : List (List Cell)) (max_rows : Nat) : Option Nat :=
  findHeaderIdx (rows.take max_rows)

theorem findHeaderIdx_spec (l : List (List Cell)) :
    (∀ k, findHeaderIdx l = some k →
        k < l.length ∧ hasAnchorTokens (l.getD k []) = true ∧
          ∀ j, j < k → hasAnchorTokens (l.getD j []) = false) ∧
    (findHeaderIdx l = none →
        ∀ j, j < l.length → hasAnchorTokens (l.getD j []) = false) := by
  induction l with
  | nil =>
    refine ⟨fun k h => ?_, fun _ j hj => ?_⟩
    · simp [findHeaderIdx] at h
    · simp at hj
  | cons r rs ih =>
    cases hr : hasAnchorTokens r with
    | true =>
      refine ⟨fun k h => ?_, fun h => ?_⟩
      · simp only [findHeaderIdx, hr, if_true, Option.some.injEq] at h
        subst h
        exact ⟨Nat.succ_pos _, by simpa using hr, fun j hj => absurd hj (Nat.not_lt_zero _)⟩
      · simp [findHeaderIdx, hr] at h
    | false =>
      refine ⟨fun k h => ?_, fun h j hj => ?_⟩
      · simp only [findHeaderIdx, hr, Bool.false_eq_true, if_false, Option.map_eq_some'] at h
        obtain ⟨k₀, hk₀, rfl⟩ := h
        obtain ⟨hlt, hmatch, hfirst⟩ := ih.1 k₀ hk₀
        refine ⟨Nat.succ_lt_succ hlt, by simpa using hmatch, fun j hj => ?_⟩
        cases j with
        | zero => simpa using hr
        | succ j₀ =>
          simpa using hfirst j₀ (Nat.lt_of_succ_lt_succ hj)
      · simp only [findHeaderIdx, hr, Bool.false_eq_true, if_false, Option.map_eq_none'] at h
        cases j with
        | zero => simpa using hr
        | succ j₀ =>
          simpa using ih.2 h j₀ (by simpa [Nat.succ_lt_succ_iff] using hj)

/-- C6: for every sequence of rows and every scan bound, `find_header_row`
returns the index of the first row within the bound whose normalized cell
values contain both anchor tokens (`periodo` and `codigo subpartida`,
matched case- and accent-insensitively, in any column order), and returns
the failure sentinel `none` when no row within the bound contains both. -/
theorem find_header_row_first_match (rows : List (List Cell)) (b : Nat) :
    (∀ k, find_header_row rows b = some k →
        k < (rows.take b).length ∧ hasAnchorTokens ((rows.take b).getD k []) = true ∧
          ∀ j, j < k → hasAnchorTokens ((rows.take b).getD j []) = false) ∧
    (find_header_row rows b = none →
        ∀ j, j < (rows.take b).length → hasAnchorTokens ((rows.take b).getD j []) = false) :=
  findHeaderIdx_spec (rows.take b)

/-- Demo spreadsheet: two junk rows, then a header row carrying the anchor
tokens with accents, mixed case and extra columns. -/
def demoRows : List (List Cell) :=
  [[Cell.s "Reporte", Cell.na],
   [Cell.na, Cell.na],
   [Cell.s " PERÍODO ", Cell.s "Código Subpartida", Cell.s "FOB"]]

theorem find_header_row_first_match_witness :
    hasAnchorTokens ((demoRows.take 40).getD 2 []) = true :=
  ((find_header_row_first_match demoRows 40).1 2 (by decide)).2.1

/-! ## CodeNormalizer

`app.py` line 150 / `appexport.py` lines 174-176:
`df["cod"].astype(str).str.replace(".", "", regex=False).str.strip().str.zfill(10)`.

`appcuode.py` lines 172-178:
`.str.replace(".0", "").str.replace(".", "").str.strip()` followed by
`lambda x: x.zfill(10) if x.isdigit() and len(x) < 10 else x`. -/

/-- `str.replace(".", "")`: remove every dot character. -/
def removeDots (l : List Char) : List Char := l.filter (fun c => c != '.')

/-- `str.replace(".0", "")`: remove every leftmost non-overlapping
occurrence of the two-character substring `.0`. -/
def removeDotZero : List Char → List Char
  | [] => []
  | [c] => [c]
  | c :: d :: rest =>
    if c = '.' ∧ d = '0' then removeDotZero rest
    else c :: removeDotZero (d :: rest)

/-- ASCII decimal digit test (the fragment of Python `str.isdigit`
exercised by classification codes). -/
def isDigitChar (c : Char) : Bool := '0' ≤ c && c ≤ '9'

/-- Python `str.isdigit()`: nonempty and all digits. -/
def pyIsDigit (l : List Char) : Bool := !l.isEmpty && l.all isDigitChar

/-- Leading sign character, as treated specially by `str.zfill`. -/
def isSignChar (c : Char) : Bool := c == '+' || c == '-'

/-- The padding arm of `str.zfill`: insert the zeros after a leading sign
character when there is one. -/
def zfillPad (width : Nat) : List Char → List Char
  | [] => List.replicate width '0'
  | c :: rest =>
    if isSignChar c then c :: (List.replicate (width - (c :: rest).length) '0' ++ rest)
    else List.replicate (width - (c :: rest).length) '0' ++ (c :: rest)

/-- Python `str.zfill(width)`: left-pad with `'0'` to the given width,
inserting the padding after a leading sign character; strings already at
least `width` long are returned unchanged. -/
def zfill (width : Nat) (l : List Char) : List Char :=
  if width ≤ l.length then l else zfillPad width l

/-- The code normalization of the subheading flows (`app.py`,
`appexport.py`): remove dots, strip, then unconditional `zfill(10)`. -/
def normalize_code_sub (s : String) : String :=
  ⟨zfill 10 (pyStrip (removeDots s.data))⟩

/-- The string-cleaning part of the CUODE code normalization:
`.str.replace(".0", "").str.replace(".", "").str.strip()`. -/
def cuodeCleanCode (s : String) : List Char :=
  pyStrip (removeDots (removeDotZero s.data))

/-- The code normalization of the CUODE flow (`appcuode.py`): clean, then
pad only when the result is purely numeric and shorter than 10. -/
def normalize_code_cuode (s : String) : String :=
  if pyIsDigit (cuodeCleanCode s) = true ∧ (cuodeCleanCode s).length < 10 then
    ⟨zfill 10 (cuodeCleanCode s)⟩
  else ⟨cuodeCleanCode s⟩

/-! ### String-operation lemmas -/

theorem head?_dropWhile_not {p : Char → Bool} :
    ∀ (l : List Char) (c : Char), (l.dropWhile p).head? = some c → p c = false := by
  intro l
  induction l with
  | nil => intro c h; simp [List.dropWhile] at h
  | cons a rest ih =>
    intro c h
    rw [List.dropWhile_cons] at h
    by_cases ha : p a
    · rw [if_pos ha] at h; exact ih c h
    · rw [if_neg ha] at h
      simp only [List.head?_cons, Option.some.injEq] at h
      subst h
      exact Bool.eq_false_iff.mpr ha

theorem dropWhile_eq_self_of_head {p : Char → Bool} (l : List Char)
    (h : ∀ c, l.head? = some c → p c = false) : l.dropWhile p = l := by
  cases l with
  | nil => rfl
  | cons a rest =>
    rw [List.dropWhile_cons, if_neg]
    simp [h a rfl]

theorem pyStrip_noLast (l : List Char) :
    ∀ c, (pyStrip l).getLast? = some c → isPySpace c = false := by
  intro c h
  unfold pyStrip at h
  rw [List.getLast?_reverse] at h
  exact head?_dropWhile_not _ c h

theorem pyStrip_prefix_dropWhile (l : List Char) :
    pyStrip l <+: l.dropWhile isPySpace := by
  unfold pyStrip
  rw [← List.reverse_suffix, List.reverse_reverse]
  exact List.dropWhile_suffix _

theorem pyStrip_noHead (l : List Char) :
    ∀ c, (pyStrip l).head? = some c → isPySpace c = false := by
  intro c h
  obtain ⟨t, ht⟩ := pyStrip_prefix_dropWhile l
  have h2 : (l.dropWhile isPySpace).head? = some c := by
    rw [← ht]; simp [List.head?_append, h]
  exact head?_dropWhile_not _ c h2

theorem mem_pyStrip {l : List Char} {c : Char} (h : c ∈ pyStrip l) : c ∈ l := by
  unfold pyStrip at h
  rw [List.mem_reverse] at h
  have h1 : c ∈ (l.dropWhile isPySpace).reverse :=
    (List.dropWhile_suffix _).subset h
  rw [List.mem_reverse] at h1
  exact (List.dropWhile_suffix _).subset h1

theorem pyStrip_eq_self (l : List Char)
    (h1 : ∀ c, l.head? = some c → isPySpace c = false)
    (h2 : ∀ c, l.getLast? = some c → isPySpace c = false) :
    pyStrip l = l := by
  unfold pyStrip
  rw [dropWhile_eq_self_of_head l h1]
  rw [dropWhile_eq_self_of_head l.reverse (fun c hc => h2 c (by rwa [List.head?_reverse] at hc))]
  exact List.reverse_reverse l

theorem pyStrip_idem (l : List Char) : pyStrip (pyStrip l) = pyStrip l :=
  pyStrip_eq_self _ (pyStrip_noHead l) (pyStrip_noLast l)

theorem removeDots_dotFree (l : List Char) : ∀ c ∈ removeDots l, c ≠ '.' := by
  intro c hc
  have := List.of_mem_filter hc
  simpa using this

theorem removeDots_eq_self (l : List Char) (h : ∀ c ∈ l, c ≠ '.') :
    removeDots l = l := by
  apply List.filter_eq_self.mpr
  intro a ha
  simpa using h a ha

theorem removeDotZero_eq_self (l : List Char) (h : ∀ c ∈ l, c ≠ '.') :
    removeDotZero l = l := by
  induction l using removeDotZero.induct with
  | case1 => rfl
  | case2 c => rfl
  | case3 c d rest hcd ih =>
    exact absurd hcd.1 (h c (by simp))
  | case4 c d rest hcd ih =>
    rw [removeDotZero, if_neg hcd]
    rw [ih (fun x hx => h x (List.mem_cons_of_mem c hx))]

theorem zfillPad_length (width : Nat) (l : List Char) :
    (zfillPad width l).length = max width (l.length) ∨
      (zfillPad width l).length = l.length := by
  cases l with
  | nil => left; simp [zfillPad]
  | cons c rest =>
    rw [zfillPad]
    by_cases hs : isSignChar c
    · rw [if_pos hs]
      simp only [List.length_cons, List.length_append, List.length_replicate]
      omega
    · rw [if_neg hs]
      simp only [List.length_cons, List.length_append, List.length_replicate]
      omega

theorem zfill_length (width : Nat) (l : List Char) :
    (zfill width l).length = max width l.length := by
  unfold zfill
  by_cases hw : width ≤ l.length
  · rw [if_pos hw]; omega
  · rw [if_neg hw]
    cases l with
    | nil => simp [zfillPad]
    | cons c rest =>
      rw [zfillPad]
      by_cases hs : isSignChar c
      · rw [if_pos hs]
        simp only [List.length_cons, List.length_append, List.length_replicate]
        simp only [List.length_cons] at hw
        omega
      · rw [if_neg hs]
        simp only [List.length_cons, List.length_append, List.length_replicate]
        simp only [List.length_cons] at hw
        omega

theorem zfill_of_le {width : Nat} {l : List Char} (h : width ≤ l.length) :
    zfill width l = l := by
  unfold zfill; rw [if_pos h]

theorem mem_zfill {width : Nat} {l : List Char} {c : Char}
    (h : c ∈ zfill width l) : c ∈ l ∨ c = '0' := by
  unfold zfill at h
  by_cases hw : width ≤ l.length
  · rw [if_pos hw] at h; exact Or.inl h
  · rw [if_neg hw] at h
    cases l with
    | nil => exact Or.inr (List.eq_of_mem_replicate (by simpa [zfillPad] using h))
    | cons a rest =>
      rw [zfillPad] at h
      by_cases hs : isSignChar a
      · rw [if_pos hs] at h
        rcases List.mem_cons.mp h with rfl | h2
        · exact Or.inl (by simp)
        · rcases List.mem_append.mp h2 with h3 | h3
          · exact Or.inr (List.eq_of_mem_replicate h3)
          · exact Or.inl (List.mem_cons_of_mem _ h3)
      · rw [if_neg hs] at h
        rcases List.mem_append.mp h with h3 | h3
        · exact Or.inr (List.eq_of_mem_replicate h3)
        · exact Or.inl h3

theorem isDigitChar_not_space {c : Char} (h : isDigitChar c = true) :
    isPySpace c = false := by
  simp only [isPySpace, Bool.or_eq_false_iff, beq_eq_false_iff_ne, ne_eq]
  refine ⟨⟨⟨⟨⟨?_, ?_⟩, ?_⟩, ?_⟩, ?_⟩, ?_⟩ <;>
    (intro heq; subst heq; exact absurd h (by decide))

theorem isDigitChar_not_sign {c : Char} (h : isDigitChar c = true) :
    isSignChar c = false := by
  simp only [isSignChar, Bool.or_eq_false_iff, beq_eq_false_iff_ne, ne_eq]
  refine ⟨?_, ?_⟩ <;> (intro heq; subst heq; exact absurd h (by decide))

theorem isDigitChar_not_dot {c : Char} (h : isDigitChar c = true) : c ≠ '.' := by
  rintro rfl; exact absurd h (by decide)

theorem zfill_digits {width : Nat} {l : List Char} (hd : pyIsDigit l = true)
    (hlen : l.length < width) :
    zfill width l = List.replicate (width - l.length) '0' ++ l := by
  unfold zfill
  rw [if_neg (by omega)]
  cases l with
  | nil => simp [zfillPad]
  | cons c rest =>
    have hc : isDigitChar c = true := by
      simp only [pyIsDigit, List.isEmpty_cons, Bool.not_false, Bool.true_and,
        List.all_cons, Bool.and_eq_true] at hd
      exact hd.1
    rw [zfillPad, if_neg (by simp [isDigitChar_not_sign hc])]


theorem getLast?_cons_or (a : Char) (l : List Char) :
    (a :: l).getLast? = l.getLast?.or (some a) := by
  rw [show a :: l = [a] ++ l from rfl, List.getLast?_append]
  rfl

theorem head?_zfill_not_space (n : Nat) (l : List Char) :
    ∀ c, (zfill n (pyStrip l)).head? = some c → isPySpace c = false := by
  intro c h
  unfold zfill at h
  by_cases hw : n ≤ (pyStrip l).length
  · rw [if_pos hw] at h
    exact pyStrip_noHead l c h
  · rw [if_neg hw] at h
    cases hT : pyStrip l with
    | nil =>
      rw [hT] at h hw
      simp only [List.length_nil, Nat.le_zero] at hw
      rw [zfillPad, List.head?_replicate, if_neg hw] at h
      injection h with h
      subst h
      decide
    | cons a rest =>
      rw [hT] at h hw
      simp only [List.length_cons] at hw
      rw [zfillPad] at h
      by_cases hs : isSignChar a
      · rw [if_pos hs] at h
        simp only [List.head?_cons, Option.some.injEq] at h
        subst h
        exact pyStrip_noHead l a (by rw [hT]; rfl)
      · rw [if_neg hs] at h
        rw [List.head?_append, List.head?_replicate] at h
        rw [if_neg (by simp only [List.length_cons]; omega)] at h
        simp only [Option.or_some, Option.some.injEq] at h
        subst h
        decide

theorem getLast?_zfill_not_space (n : Nat) (l : List Char) :
    ∀ c, (zfill n (pyStrip l)).getLast? = some c → isPySpace c = false := by
  intro c h
  unfold zfill at h
  by_cases hw : n ≤ (pyStrip l).length
  · rw [if_pos hw] at h
    exact pyStrip_noLast l c h
  · rw [if_neg hw] at h
    cases hT : pyStrip l with
    | nil =>
      rw [hT] at h hw
      simp only [List.length_nil, Nat.le_zero] at hw
      rw [zfillPad, List.getLast?_replicate, if_neg hw] at h
      injection h with h
      subst h
      decide
    | cons a rest =>
      rw [hT] at h hw
      simp only [List.length_cons] at hw
      rw [zfillPad] at h
      by_cases hs : isSignChar a
      · rw [if_pos hs] at h
        rw [getLast?_cons_or, List.getLast?_append] at h
        cases hx : rest.getLast? with
        | none =>
          rw [hx] at h
          rw [List.getLast?_replicate,
            if_neg (by simp only [List.length_cons]; omega)] at h
          simp only [Option.none_or, Option.or_some, Option.some.injEq] at h
          subst h
          decide
        | some x =>
          rw [hx] at h
          simp only [Option.or_some, Option.some.injEq] at h
          subst h
          refine pyStrip_noLast l x ?_
          rw [hT, getLast?_cons_or, hx]
          rfl
      · rw [if_neg hs] at h
        rw [List.getLast?_append] at h
        have hne : (a :: rest) ≠ [] := by simp
        obtain ⟨x, hx⟩ := Option.isSome_iff_exists.mp (List.getLast?_isSome.mpr hne)
        rw [hx] at h
        simp only [Option.or_some, Option.some.injEq] at h
        subst h
        refine pyStrip_noLast l x ?_
        rw [hT, hx]

theorem pyStrip_zfill (n : Nat) (l : List Char) :
    pyStrip (zfill n (pyStrip l)) = zfill n (pyStrip l) :=
  pyStrip_eq_self _ (head?_zfill_not_space n l) (getLast?_zfill_not_space n l)

theorem subClean_dotFree (s : String) :
    ∀ c ∈ pyStrip (removeDots s.data), c ≠ '.' :=
  fun c hc => removeDots_dotFree _ c (mem_pyStrip hc)

theorem cuodeCleanCode_dotFree (s : String) :
    ∀ c ∈ cuodeCleanCode s, c ≠ '.' :=
  fun c hc => removeDots_dotFree _ c (mem_pyStrip hc)

/-- C1 counterexample: the subheading flows' code normalization
(`app.py` line 150, `appexport.py` lines 174-176) pads a non-numeric short
code with zeros instead of returning it unchanged, because `str.zfill(10)`
is applied unconditionally. -/
theorem normalize_code_claim_false :
    normalize_code_sub "abc" = "0000000abc" ∧ normalize_code_sub "abc" ≠ "abc" := by
  constructor
  · decide
  · decide

/-- C1 (amended): code normalization removes dot characters and trims
whitespace in both variants, but the two flows pad differently.  The
subheading variant returns cleaned codes of length ≥ 10 unchanged and
left-pads *every* shorter cleaned code to length 10 (zeros inserted after
a leading sign character; shown here for the sign-free case), numeric or
not.  The CUODE variant additionally removes `.0` substrings first, pads
only cleaned codes that are purely numeric and shorter than 10, and
returns every other cleaned code unchanged. -/
theorem normalize_code_amended (s : String) :
    (10 ≤ (pyStrip (removeDots s.data)).length →
        normalize_code_sub s = ⟨pyStrip (removeDots s.data)⟩) ∧
    ((pyStrip (removeDots s.data)).length < 10 →
        isSignChar ((pyStrip (removeDots s.data)).headD '0') = false →
        normalize_code_sub s =
          ⟨List.replicate (10 - (pyStrip (removeDots s.data)).length) '0' ++
            pyStrip (removeDots s.data)⟩) ∧
    (¬(pyIsDigit (cuodeCleanCode s) = true ∧ (cuodeCleanCode s).length < 10) →
        normalize_code_cuode s = ⟨cuodeCleanCode s⟩) ∧
    (pyIsDigit (cuodeCleanCode s) = true →
        (cuodeCleanCode s).length < 10 →
        normalize_code_cuode s =
          ⟨List.replicate (10 - (cuodeCleanCode s).length) '0' ++ cuodeCleanCode s⟩) := by
  refine ⟨fun h => ?_, fun h hsign => ?_, fun h => ?_, fun h1 h2 => ?_⟩
  · unfold normalize_code_sub
    exact congrArg String.mk (zfill_of_le h)
  · unfold normalize_code_sub
    refine congrArg String.mk ?_
    unfold zfill
    rw [if_neg (by omega)]
    cases hT : pyStrip (removeDots s.data) with
    | nil => simp [zfillPad]
    | cons a rest =>
      rw [hT] at hsign
      simp only [List.headD_cons] at hsign
      rw [zfillPad, if_neg (by simp [hsign])]
  · unfold normalize_code_cuode
    rw [if_neg h]
  · unfold normalize_code_cuode
    rw [if_pos ⟨h1, h2⟩]
    exact congrArg String.mk (zfill_digits h1 h2)

theorem normalize_code_amended_witness :
    normalize_code_sub "12.34" = "0000001234" ∧
    normalize_code_cuode "12.34.0" = "0000001234" ∧
    normalize_code_cuode "ABC" = "ABC" := by
  refine ⟨?_, ?_, ?_⟩
  · exact ((normalize_code_amended "12.34").2.1 (by decide) (by decide)).trans (by decide)
  · exact ((normalize_code_amended "12.34.0").2.2.2 (by decide) (by decide)).trans (by decide)
  · exact ((normalize_code_amended "ABC").2.2.1 (by decide)).trans (by decide)

/-- C7: both code normalizations are idempotent — applying them twice
yields the same result as applying them once, for every input string. -/
theorem normalize_code_idempotent (s : String) :
    normalize_code_sub (normalize_code_sub s) = normalize_code_sub s ∧
    normalize_code_cuode (normalize_code_cuode s) = normalize_code_cuode s := by
  constructor
  · show normalize_code_sub ⟨zfill 10 (pyStrip (removeDots s.data))⟩ =
      ⟨zfill 10 (pyStrip (removeDots s.data))⟩
    unfold normalize_code_sub
    refine congrArg String.mk ?_
    have hdots : removeDots (zfill 10 (pyStrip (removeDots s.data))) =
        zfill 10 (pyStrip (removeDots s.data)) := by
      refine removeDots_eq_self _ (fun c hc => ?_)
      rcases mem_zfill hc with h1 | h1
      · exact subClean_dotFree s c h1
      · subst h1; decide
    rw [show (String.mk (zfill 10 (pyStrip (removeDots s.data)))).data =
        zfill 10 (pyStrip (removeDots s.data)) from rfl]
    rw [hdots, pyStrip_zfill]
    refine zfill_of_le ?_
    rw [zfill_length]
    omega
  · unfold normalize_code_cuode
    by_cases hcond : pyIsDigit (cuodeCleanCode s) = true ∧ (cuodeCleanCode s).length < 10
    · rw [if_pos hcond]
      have hclean : cuodeCleanCode ⟨zfill 10 (cuodeCleanCode s)⟩ =
          zfill 10 (cuodeCleanCode s) := by
        unfold cuodeCleanCode
        rw [show (String.mk (zfill 10 (pyStrip (removeDots (removeDotZero s.data))))).data =
          zfill 10 (pyStrip (removeDots (removeDotZero s.data))) from rfl]
        have hdf : ∀ c ∈ zfill 10 (pyStrip (removeDots (removeDotZero s.data))), c ≠ '.' := by
          intro c hc
          rcases mem_zfill hc with h1 | h1
          · exact cuodeCleanCode_dotFree s c h1
          · subst h1; decide
        rw [removeDotZero_eq_self _ hdf, removeDots_eq_self _ hdf]
        exact pyStrip_zfill 10 (removeDots (removeDotZero s.data))
      have hlen : (zfill 10 (cuodeCleanCode s)).length = 10 := by
        rw [show cuodeCleanCode s = pyStrip (removeDots (removeDotZero s.data)) from rfl]
        rw [zfill_length]
        have := hcond.2
        rw [show cuodeCleanCode s = pyStrip (removeDots (removeDotZero s.data)) from rfl] at this
        omega
      rw [if_neg (by rw [hclean, hlen]; omega)]
      exact congrArg String.mk hclean
    · rw [if_neg hcond]
      have hclean : cuodeCleanCode ⟨cuodeCleanCode s⟩ = cuodeCleanCode s := by
        unfold cuodeCleanCode
        rw [show (String.mk (pyStrip (removeDots (removeDotZero s.data)))).data =
          pyStrip (removeDots (removeDotZero s.data)) from rfl]
        have hdf : ∀ c ∈ pyStrip (removeDots (removeDotZero s.data)), c ≠ '.' :=
          cuodeCleanCode_dotFree s
        rw [removeDotZero_eq_self _ hdf, removeDots_eq_self _ hdf]
        exact pyStrip_idem _
      rw [if_neg (by rw [hclean]; exact hcond)]
      exact congrArg String.mk hclean

/-! ## PeriodParser

`app.py` lines 138-140 and `appexport.py` lines 162-164 (identical):
`re.search(r"(\d{4})\s*/\s*(\d{2})", str(txt))`, formatted as
`YYYY-MM-01`, else `None`.

`appcuode.py` lines 60-81 (`parse_fecha_any`): strip, try
`(\d{4})\s*/\s*(\d{1,2})` (month reformatted as two digits), then fall
back to a bare `(\d{4})` year giving `YYYY-01-01`, else `None`. -/

/-- Match exactly `k` digits at the head, returning them with the rest. -/
def takeDigits : Nat → List Char → Option (List Char × List Char)
  | 0, l => some ([], l)
  | _ + 1, [] => none
  | k + 1, c :: rest =>
    if isDigitChar c then
      match takeDigits k rest with
      | some (ds, r) => some (c :: ds, r)
      | none => none
    else none

/-- `\s*/`: skip whitespace, then require a slash. -/
def dropSpacesThenSlash (l : List Char) : Option (List Char) :=
  match l.dropWhile isPySpace with
  | '/' :: rest => some rest
  | _ => none

/-- `\d{1,2}` (greedy): one digit, two when possible. -/
def takeMonth12 : List Char → Option (List Char × List Char)
  | [] => none
  | c :: rest =>
    if isDigitChar c then
      match rest with
      | d :: rest₂ =>
        if isDigitChar d then some ([c, d], rest₂) else some ([c], d :: rest₂)
      | [] => some ([c], [])
    else none

/-- Attempt to match `(\d{4})\s*/\s*(\d{2})` at the current position. -/
def matchYM_app (l : List Char) : Option (List Char × List Char) :=
  match takeDigits 4 l with
  | some (y, r1) =>
    match dropSpacesThenSlash r1 with
    | some r2 =>
      match takeDigits 2 (r2.dropWhile isPySpace) with
      | some (m, _) => some (y, m)
      | none => none
    | none => none
  | none => none

/-- Attempt to match `(\d{4})\s*/\s*(\d{1,2})` at the current position. -/
def matchYM_cuode (l : List Char) : Option (List Char × List Char) :=
  match takeDigits 4 l with
  | some (y, r1) =>
    match dropSpacesThenSlash r1 with
    | some r2 =>
      match takeMonth12 (r2.dropWhile isPySpace) with
      | some (m, _) => some (y, m)
      | none => none
    | none => none
  | none => none

/-- `re.search` for the `YYYY / MM` pattern of the subheading flows:
leftmost match wins. -/
def searchYM_app : List Char → Option (List Char × List Char)
  | [] => none
  | c :: rest =>
    match matchYM_app (c :: rest) with
    | some r => some r
    | none => searchYM_app rest

/-- `re.search` for the `YYYY / M(M)` pattern of the CUODE flow. -/
def searchYM_cuode : List Char → Option (List Char × List Char)
  | [] => none
  | c :: rest =>
    match matchYM_cuode (c :: rest) with
    | some r => some r
    | none => searchYM_cuode rest

/-- `re.search(r"(\d{4})", ·)`: leftmost window of four digits. -/
def searchYear4 : List Char → Option (List Char)
  | [] => none
  | c :: rest =>
    match takeDigits 4 (c :: rest) with
    | some (y, _) => some y
    | none => searchYear4 rest

/-- `parse_fecha` of `app.py` / `appexport.py`. -/
def parse_fecha (x : Cell) : Option String :=
  match searchYM_app (cellStr x).data with
  | some (y, m) => some (⟨y⟩ ++ "-" ++ ⟨m⟩ ++ "-01")
  | none => none

/-- Digit characters to the number they denote (`int(...)`). -/
def digitsToNat (l : List Char) : Nat :=
  l.foldl (fun a c => a * 10 + (c.toNat - '0'.toNat)) 0

/-- Python `f"{mm:02d}"`. -/
def fmt02 (n : Nat) : String :=
  if n < 10 then "0" ++ toString n else toString n

/-- `parse_fecha_any` of `appcuode.py`. -/
def parse_fecha_any (x : Cell) : Option String :=
  let s := pyStrip (cellStr x).data
  match searchYM_cuode s with
  | some (y, m) => some (⟨y⟩ ++ "-" ++ fmt02 (digitsToNat m) ++ "-01")
  | none =>
    match searchYear4 s with
    | some y => some (⟨y⟩ ++ "-01-01")
    | none => none

/-- C2 counterexample: the period string `"2020"` has no `YYYY / MM`
pattern but contains a bare 4-digit year, yet the subheading flows'
`parse_fecha` returns `None` for it — only the CUODE flow's
`parse_fecha_any` produces `2020-01-01`.  The claim fails for the
subheading flows. -/
theorem parse_period_claim_false :
    parse_fecha (Cell.s "2020") = none ∧
    parse_fecha_any (Cell.s "2020") = some "2020-01-01" := by
  constructor
  · decide
  · decide

/-- C2 (amended): for every period cell whose text contains no `YYYY / MM`
pattern but does contain a bare 4-digit year, only the CUODE flow's
`parse_fecha_any` returns January first of that year; the subheading
flows' `parse_fecha` returns the null sentinel for such strings. -/
theorem parse_period_bare_year_amended (x : Cell) (y : List Char)
    (h1 : searchYM_cuode (pyStrip (cellStr x).data) = none)
    (h2 : searchYM_app (cellStr x).data = none)
    (h3 : searchYear4 (pyStrip (cellStr x).data) = some y) :
    parse_fecha_any x = some (⟨y⟩ ++ "-01-01") ∧ parse_fecha x = none := by
  constructor
  · unfold parse_fecha_any
    simp only [h1, h3]
  · unfold parse_fecha
    rw [h2]

theorem parse_period_bare_year_amended_witness :
    parse_fecha_any (Cell.s " 2020 ") = some "2020-01-01" ∧
    parse_fecha (Cell.s " 2020 ") = none := by
  have h := parse_period_bare_year_amended (Cell.s " 2020 ")
    (['2', '0', '2', '0']) (by decide) (by decide) (by decide)
  exact ⟨h.1.trans (by decide), h.2⟩

/-! ## SectorClassifier (`get_sector` of `app.py` / `appexport.py`) -/

/-- The fixed prefix table of `get_sector` (identical in both subheading
engines). -/
def sectors : List (String × String) :=
  [("03", "🦐 Pesca"), ("07", "🥦 Hortalizas"), ("08", "🍌 Frutas"),
   ("16", "🥫 Conservas"), ("18", "🍫 Cacao"),
   ("29", "🧪 Químicos"), ("30", "💊 Farma"),
   ("39", "🧴 Plásticos"), ("44", "🪵 Madera"),
   ("72", "🏗️ Hierro/Acero"),
   ("84", "⚙️ Maquinaria"), ("85", "🔌 Eléctrico"),
   ("87", "🚗 Vehículos")]

/-- `get_sector`: look the first two characters of the code up in the
fixed table, with the `'📦 Otros'` default (`sectors.get(cap, '📦 Otros')`). -/
def get_sector (code : String) : String :=
  (sectors.lookup ⟨code.data.take 2⟩).getD "📦 Otros"

/-- C8: `get_sector` is total — for every code string, the two-character
prefix either hits the fixed table (and its label is returned) or the
fixed `'📦 Otros'` bucket is returned; no failure and no null result. -/
theorem get_sector_total (code : String) :
    (sectors.lookup ⟨code.data.take 2⟩ = some (get_sector code)) ∨
    (sectors.lookup ⟨code.data.take 2⟩ = none ∧ get_sector code = "📦 Otros") := by
  unfold get_sector
  cases h : sectors.lookup (⟨code.data.take 2⟩ : String) with
  | none => right; exact ⟨rfl, rfl⟩
  | some v => left; rfl

/-! ## DataFrame model

A dataframe is a list of named columns (pandas is columnar); all pipeline
operations of the sources are expressed over it.  `getCol` models `df[c]`
(raising `KeyError` when absent), `setCol` models column assignment
(overwrite in place, else append at the end). -/

abbrev Frame := List (String × List Cell)

def colNames (df : Frame) : List String := df.map (fun c => c.1)

def hasCol (df : Frame) (name : String) : Bool := (colNames df).contains name

def frameNRows : Frame → Nat
  | [] => 0
  | c :: _ => c.2.length

/-- `df[name]`: `KeyError` when the column is absent. -/
def getCol (df : Frame) (name : String) : Except String (List Cell) :=
  match df.lookup name with
  | some v => .ok v
  | none => .error ("KeyError: " ++ name)

/-- `df[name] = vals`: overwrite an existing column in place, else append. -/
def setCol (df : Frame) (name : String) (vals : List Cell) : Frame :=
  if hasCol df name then
    df.map (fun c => if c.1 == name then (name, vals) else c)
  else df ++ [(name, vals)]

/-- `pandas` column naming: a missing header cell becomes `Unnamed: i`,
then `df.columns.astype(str).str.strip()` is applied. -/
def pyColName (i : Nat) : Cell → String
  | .na => "Unnamed: " ++ toString i
  | c => pyStripS (cellStr c)

/-- `pd.read_excel(..., header=idx)` followed by
`df.columns.astype(str).str.strip()` and the
`df.loc[:, ~df.columns.str.contains("^Unnamed", na=False)]` filter. -/
def buildFrame (hdr : List Cell) (data : List (List Cell)) : Frame :=
  ((List.range hdr.length).map (fun i =>
    (pyColName i (hdr.getD i .na), data.map (fun r => r.getD i .na)))).filter
    (fun c => !("Unnamed".data.isPrefixOf c.1.data))

/-- `{norm(c): c for c in df.columns}` (dict: last duplicate wins),
looked up at one key. -/
def normColsGet (cols : List String) (key : String) : Option String :=
  (cols.filter (fun c => norm c == key)).getLast?

/-- `pick(*opts)`: the first option present among the normalized column
names. -/
def pick (cols : List String) : List String → Option String
  | [] => none
  | o :: os =>
    match normColsGet cols o with
    | some c => some c
    | none => pick cols os

/-- `df.rename(columns=assigns)`: a column keeps its values and takes the
last new name assigned to it, if any. -/
def applyRename (assigns : List (String × String)) (df : Frame) : Frame :=
  df.map (fun c =>
    match (assigns.filter (fun a => a.1 == c.1)).getLast? with
    | some a => (a.2, c.2)
    | none => c)

/-- Keep the elements of `vals` whose mask entry is true. -/
def applyMask (mask : List Bool) (vals : List Cell) : List Cell :=
  (List.zip mask vals).filterMap (fun p => if p.1 then some p.2 else none)

/-- `df.dropna(subset=[c1, c2])`: keep the rows where both cells are
present. -/
def dropna2 (df : Frame) (c1 c2 : String) : Except String Frame :=
  match getCol df c1 with
  | .error e => .error e
  | .ok v1 =>
    match getCol df c2 with
    | .error e => .error e
    | .ok v2 =>
      let mask := List.zipWith (fun a b => a != Cell.na && b != Cell.na) v1 v2
      .ok (df.map (fun c => (c.1, applyMask mask c.2)))

/-- The decimal fragment of `pd.to_numeric`: digits with an optional
fractional part. -/
def parseUnsigned (l : List Char) : Option ℚ :=
  let intPart := l.takeWhile isDigitChar
  let rest := l.dropWhile isDigitChar
  match rest with
  | [] => if intPart.isEmpty then none else some (digitsToNat intPart)
  | '.' :: frac =>
    if frac.all isDigitChar && !(intPart.isEmpty && frac.isEmpty) then
      some ((digitsToNat intPart : ℚ) + (digitsToNat frac : ℚ) / ((10 : ℚ) ^ frac.length))
    else none
  | _ => none

/-- `pd.to_numeric(x, errors="coerce")` on one cell (decimal fragment,
optional sign, surrounding whitespace). -/
def toNumeric? (c : Cell) : Option ℚ :=
  match c with
  | .na => none
  | .n q => some q
  | .s v =>
    match pyStrip v.data with
    | '-' :: rest => (parseUnsigned rest).map (fun q => -q)
    | '+' :: rest => parseUnsigned rest
    | t => parseUnsigned t

/-- `pd.to_numeric(errors="coerce").fillna(0)` on one cell. -/
def coerceNum (c : Cell) : Cell :=
  match toNumeric? c with
  | some q => .n q
  | none => .n 0

/-- `for c in ["fob", "cif", "peso"]: if c in df.columns: coerce`. -/
def coerceNumericCols (df : Frame) (names : List String) : Frame :=
  names.foldl (fun d nm =>
    match d.lookup nm with
    | some vals => setCol d nm (vals.map coerceNum)
    | none => d) df

/-- `df[df["fecha"].str.startswith(yr)]`. -/
def filterByYear (df : Frame) (yr : String) : Except String Frame :=
  match getCol df "fecha" with
  | .error e => .error e
  | .ok fe =>
    let mask := fe.map (fun c => yr.data.isPrefixOf (cellStr c).data)
    .ok (df.map (fun c => (c.1, applyMask mask c.2)))

/-- `df[cols]` as a list of named columns, `KeyError` when one is
missing. -/
def getCols (df : Frame) : List String → Except String (List (String × List Cell))
  | [] => .ok []
  | cn :: rest =>
    match getCol df cn with
    | .ok v =>
      match getCols df rest with
      | .ok r => .ok ((cn, v) :: r)
      | .error e => .error e
    | .error e => .error e

/-- `df[cols].to_json(orient="records")`: one key/value object per row,
keys in column order. -/
def selectRecords (df : Frame) (cols : List String) :
    Except String (List (List (String × Cell))) :=
  match getCols df cols with
  | .ok colVals =>
    .ok ((List.range (frameNRows df)).map (fun i =>
      colVals.map (fun cv => (cv.1, cv.2.getD i .na))))
  | .error e => .error e

/-- Numeric value of a cell as summed by pandas (`Series.sum()` over a
coerced numeric column; only `Cell.n` occurs there). -/
def cellQ : Cell → ℚ
  | .n q => q
  | _ => 0

def sumCol (vals : List Cell) : ℚ := vals.foldr (fun c a => cellQ c + a) 0

/-- Sum of the `key` field over a list of JSON records. -/
def sumRecsKey (recs : List (List (String × Cell))) (key : String) : ℚ :=
  recs.foldr (fun r a => cellQ ((r.lookup key).getD .na) + a) 0

/-! ## DescriptionCleaner -/

/-- Scan for the first `)`; the dot of `\(.*?\)` does not cross a
newline. -/
def findClose : List Char → Option (List Char)
  | [] => none
  | ')' :: rest => some rest
  | '\n' :: _ => none
  | _ :: rest => findClose rest

/-- Fuelled scanner for `re.sub(r"\(.*?\)", "", ·)`: each matched
parenthetical group is removed, an unclosed `(` is kept literally. -/
def removeParensF : Nat → List Char → List Char
  | 0, l => l
  | _ + 1, [] => []
  | fuel + 1, c :: rest =>
    if c = '(' then
      match findClose rest with
      | some rest₂ => removeParensF fuel rest₂
      | none => c :: removeParensF fuel rest
    else c :: removeParensF fuel rest

def removeParens (l : List Char) : List Char := removeParensF l.length l

/-- `re.sub("^" ++ lit ++ "\s*", "", ·)` for a literal prefix pattern. -/
def stripLeadingLit (pat : List Char) (l : List Char) : List Char :=
  if pat.isPrefixOf l then (l.drop pat.length).dropWhile isPySpace else l

/-- Python `str.capitalize()`: first character upper-cased, the rest
lower-cased. -/
def pyCapitalize : List Char → List Char
  | [] => []
  | c :: rest => pyUpperChar c :: rest.map pyLowerChar

/-- `clean_text` of `app.py` / `appexport.py` (aggressive profile):
non-strings fall back to the sentinel, otherwise strip + upper, strip the
boilerplate prefixes and parentheticals, strip, then capitalize — with the
sentinel for an empty result. -/
def clean_text_sub (x : Cell) : String :=
  match x with
  | .s text =>
    let t0 := (pyStrip text.data).map pyUpperChar
    let t1 := stripLeadingLit "LOS DEMÁS".data t0
    let t2 := stripLeadingLit "LAS DEMÁS".data t1
    let t3 := stripLeadingLit "OTROS".data t2
    let t4 := stripLeadingLit "OTRAS".data t3
    let t5 := removeParens t4
    let t6 := pyStrip t5
    if t6.isEmpty then "Desconocido" else ⟨pyCapitalize t6⟩
  | _ => "Desconocido"

/-- `clean_text` of `appcuode.py` (light profile): strip, remove
parentheticals, collapse whitespace, sentinel when empty. -/
def clean_text_cuode (x : Cell) : String :=
  match x with
  | .s text =>
    let t0 := pyStrip text.data
    let t1 := pyStrip (removeParens t0)
    let t2 := pyStrip (collapseWS t1)
    if t2.isEmpty then "Desconocido" else ⟨t2⟩
  | _ => "Desconocido"

/-! ## ETLEngine (`app.py`) -/

/-- One input spreadsheet: its base name and its raw cell rows. -/
structure XFile where
  name : String
  rows : List (List Cell)
deriving DecidableEq

/-- Flow of a file in `app.py`:
`"exports" if "export" in filename.lower() else "imports"`. -/
inductive Tipo where
  | imports
  | exports
deriving DecidableEq

/-- Python substring containment (`pat in s`). -/
def containsSub (pat : List Char) : List Char → Bool
  | [] => pat.isEmpty
  | c :: rest => pat.isPrefixOf (c :: rest) || containsSub pat rest

def tipoOf (filename : String) : Tipo :=
  if containsSub "export".data (filename.data.map pyLowerChar) then .exports
  else .imports

/-- Per-file outcome: `ok` counts towards `processed`, `skipped` is a
`continue` after a warning, `errored` is a caught exception. -/
inductive FOut where
  | ok
  | skipped
  | errored
deriving DecidableEq

/-- Effects a file produces while being processed in `app.py`: writing a
year file, and replacing a summary entry for a year of a flow. -/
inductive AppEff where
  | write (t : Tipo) (yr : String) (content : List (List (String × Cell)))
  | entry (t : Tipo) (yr : String) (total : ℚ)
deriving DecidableEq

/-- JSON scalar values as persisted by the pipelines. -/
inductive JVal where
  | s (v : String)
  | n (v : ℚ)
deriving DecidableEq

/-- Summary entry of `app.py` / `appexport.py`:
`{"year": yr, "total": round(float(total), 2), "file": f"{yr}.json"}`. -/
structure AppEntry where
  year : String
  total : ℚ
  file : String
deriving DecidableEq

def AppEntry.toJson (e : AppEntry) : List (String × JVal) :=
  [("year", .s e.year), ("total", .n e.total), ("file", .s e.file)]

/-- Banker-rounded integer (Python `round` ties-to-even). -/
def roundHalfEven (q : ℚ) : ℤ :=
  let f := Rat.floor q
  if q - f < 1 / 2 then f
  else if (1 : ℚ) / 2 < q - f then f + 1
  else if f % 2 = 0 then f else f + 1

/-- Python `round(x, 2)` over the rationals. -/
def round2 (q : ℚ) : ℚ := (roundHalfEven (q * 100) : ℚ) / 100

/-- `resumen[tipo] = [x for x in resumen[tipo] if x["year"] != yr]` then
`resumen[tipo].append({"year": yr, "total": round(float(total), 2),
"file": f"{yr}.json"})`. -/
def applyEntry (res : List AppEntry) (yr : String) (tot : ℚ) : List AppEntry :=
  res.filter (fun e => e.year != yr) ++
    [{ year := yr, total := round2 tot, file := yr ++ ".json" }]

/-- The rename dict of `app.py` lines 121-129 (also `appexport.py` lines
143-151): accent variants are listed as written in the source — note the
accented spellings can never match a key of the normalized dict. -/
def appRenameAssigns (cols : List String) : List (String × String) :=
  ([(pick cols ["periodo", "período"], "fecha_txt"),
    (pick cols ["pais origen", "país origen", "pais de origen", "país de origen"], "pais"),
    (pick cols ["codigo subpartida", "código subpartida"], "cod"),
    (pick cols ["subpartida", "descripcion", "descripción"], "desc"),
    (pick cols ["tm (peso neto)", "peso neto"], "peso"),
    (pick cols ["fob"], "fob"),
    (pick cols ["cif"], "cif")]).filterMap
    (fun a => a.1.map (fun k => (k, a.2)))

/-- The renamed dataframe of a file once the header row is known. -/
def appFrame (f : XFile) (idx : Nat) : Frame :=
  let df := buildFrame (f.rows.getD idx []) (f.rows.drop (idx + 1))
  applyRename (appRenameAssigns (colNames df)) df

/-- `app.py` lines 138-152: parse the period, drop unusable rows, coerce
the numeric columns, normalize the code, derive the sector, clean the
description (unguarded `df["desc"]`, a `KeyError` when absent). -/
def cook_app (df : Frame) : Except String Frame :=
  match getCol df "fecha_txt" with
  | .error e => .error e
  | .ok ft =>
    let df := setCol df "fecha" (ft.map (fun c =>
      match parse_fecha c with
      | some d => Cell.s d
      | none => Cell.na))
    match dropna2 df "fecha" "cod" with
    | .error e => .error e
    | .ok df =>
      let df := coerceNumericCols df ["fob", "cif", "peso"]
      match getCol df "cod" with
      | .error e => .error e
      | .ok cod =>
        let df := setCol df "cod"
          (cod.map (fun c => Cell.s (normalize_code_sub (cellStr c))))
        match getCol df "cod" with
        | .error e => .error e
        | .ok cod₂ =>
          let df := setCol df "sector"
            (cod₂.map (fun c => Cell.s (get_sector (cellStr c))))
          match getCol df "desc" with
          | .error e => .error e
          | .ok de =>
            .ok (setCol df "label" (de.map (fun c => Cell.s (clean_text_sub c))))

/-- `sorted(df["fecha"].str[:4].unique())`. -/
def yearsOf (df : Frame) : Except String (List String) :=
  match getCol df "fecha" with
  | .error e => .error e
  | .ok fe =>
    .ok (List.insertionSort (fun a b => a ≤ b)
      ((fe.map (fun c => (⟨(cellStr c).data.take 4⟩ : String))).dedup))

/-- The columns persisted per year file by `app.py`. -/
def appCols : List String := ["fecha", "cod", "label", "sector", "fob", "cif", "peso"]

/-- The year loop of `app.py` lines 159-166: write the year file, sum the
flow's primary measure, replace the summary entry.  A failure aborts the
remaining years while keeping earlier effects (the `try` wraps the whole
file body); in this pipeline a `KeyError` in the loop can only occur at the
column selection, before the year's write. -/
def yearLoop_app (t : Tipo) (df : Frame) : List String → List AppEff × FOut
  | [] => ([], .ok)
  | yr :: rest =>
    match filterByYear df yr with
    | .error _ => ([], .errored)
    | .ok sub =>
      match selectRecords sub appCols with
      | .error _ => ([], .errored)
      | .ok recs =>
        match getCol sub (if t = Tipo.imports then "cif" else "fob") with
        | .error _ => ([AppEff.write t yr recs], .errored)
        | .ok totCol =>
          let (effs, out) := yearLoop_app t df rest
          (AppEff.write t yr recs :: AppEff.entry t yr (sumCol totCol) :: effs, out)

/-- Processing of one file in `app.py` lines 96-171: locate the header
(`continue` when absent), build and rename the frame, check the two
mandatory columns (`continue` when absent), cook, iterate the years.  Any
raised error is caught at this boundary. -/
def processFile_app (f : XFile) : List AppEff × FOut :=
  let t := tipoOf f.name
  match find_header_row f.rows 40 with
  | none => ([], .skipped)
  | some idx =>
    let df := appFrame f idx
    if hasCol df "cod" && hasCol df "fecha_txt" then
      match cook_app df with
      | .error _ => ([], .errored)
      | .ok df₂ =>
        match yearsOf df₂ with
        | .error _ => ([], .errored)
        | .ok yrs => yearLoop_app t df₂ yrs
    else ([], .skipped)

/-- The slice of the filesystem owned by `app.py`: per-flow year files and
summary files. -/
structure AppFS where
  yearFiles : Tipo → String → Option (List (List (String × Cell)))
  summaries : Tipo → Option (List (List (String × JVal)))

def emptyAppFS : AppFS where
  yearFiles := fun _ _ => none
  summaries := fun _ => none

def applyAppEff (st : AppFS × (Tipo → List AppEntry)) (e : AppEff) :
    AppFS × (Tipo → List AppEntry) :=
  match e with
  | .write t yr content =>
    ({ st.1 with
        yearFiles := fun t₂ y₂ =>
          if t₂ = t ∧ y₂ = yr then some content else st.1.yearFiles t₂ y₂ },
      st.2)
  | .entry t yr tot =>
    (st.1, fun t₂ => if t₂ = t then applyEntry (st.2 t₂) yr tot else st.2 t₂)

/-- The per-file loop of `run_process`: process each file, apply its
effects, and count the files that completed. -/
def runFiles_app :
    List XFile → AppFS × (Tipo → List AppEntry) × Nat →
      AppFS × (Tipo → List AppEntry) × Nat
  | [], st => st
  | f :: fs, (fsys, res, procd) =>
    let (effs, out) := processFile_app f
    let st₂ := effs.foldl applyAppEff (fsys, res)
    runFiles_app fs (st₂.1, st₂.2, procd + (if out = FOut.ok then 1 else 0))

/-- `resumen[t].sort(key=lambda x: x["year"], reverse=True)` (Python's
stable sort with a reversed comparison). -/
def sortEntriesDesc (l : List AppEntry) : List AppEntry :=
  List.insertionSort (fun a b => b.year ≤ a.year) l

/-- `sorted(files)`: deterministic processing order. -/
def sortFilesByName (files : List XFile) : List XFile :=
  List.insertionSort (fun a b => a.name ≤ b.name) files

/-- `app.py` lines 174-179: write each flow's `summary.json` only when its
in-memory index is nonempty. -/
def writeSummaries_app (fsys : AppFS) (res : Tipo → List AppEntry) : AppFS :=
  let f1 : AppFS :=
    if res Tipo.imports ≠ [] then
      { fsys with
          summaries := fun t =>
            if t = Tipo.imports then
              some ((sortEntriesDesc (res Tipo.imports)).map AppEntry.toJson)
            else fsys.summaries t }
    else fsys
  if res Tipo.exports ≠ [] then
    { f1 with
        summaries := fun t =>
          if t = Tipo.exports then
            some ((sortEntriesDesc (res Tipo.exports)).map AppEntry.toJson)
          else f1.summaries t }
  else f1

/-- `ETLEngine.run_process` over already-discovered files (the `*.xlsx`
glob minus `~$` lock files): configuration failure on an empty batch,
otherwise one pass over the sorted files, then the summary writes;
successful exactly when `processed > 0`. -/
def run_process_app (files : List XFile) (fsys : AppFS) : Bool × AppFS :=
  if files.isEmpty then (false, fsys)
  else
    let st := runFiles_app (sortFilesByName files) (fsys, fun _ => [], 0)
    (decide (0 < st.2.2), writeSummaries_app st.1 st.2.1)

/-! ## ExportETL (`appexport.py`) -/

def isWordChar (c : Char) : Bool :=
  ('a' ≤ c && c ≤ 'z') || ('A' ≤ c && c ≤ 'Z') || ('0' ≤ c && c ≤ '9') || c == '_'

/-- One position of `re.search(r"\bexport\b", ·)`: the literal with word
boundaries on both sides. -/
def wordMatchHere (pat l : List Char) (prev : Option Char) : Bool :=
  pat.isPrefixOf l &&
    (match prev with
     | none => true
     | some p => !isWordChar p) &&
    (match l.drop pat.length with
     | [] => true
     | c :: _ => !isWordChar c)

def searchWord (pat : List Char) : Option Char → List Char → Bool
  | _, [] => false
  | prev, c :: rest => wordMatchHere pat (c :: rest) prev || searchWord pat (some c) rest

/-- `is_export_file`: `re.search(r"\bexport\b", basename.lower())`. -/
def is_export_file (filename : String) : Bool :=
  searchWord "export".data none (filename.data.map pyLowerChar)

/-- Effects of one file in `appexport.py`: year file writes and summary
entry replacements (single flow). -/
inductive ExpEff where
  | write (yr : String) (content : List (List (String × Cell)))
  | entry (yr : String) (total : ℚ)
deriving DecidableEq

/-- `appexport.py` lines 162-178: same cooking as `app.py` except that the
missing description column falls back to a constant `"Desconocido"`
column. -/
def cook_exp (df : Frame) : Except String Frame :=
  match getCol df "fecha_txt" with
  | .error e => .error e
  | .ok ft =>
    let df := setCol df "fecha" (ft.map (fun c =>
      match parse_fecha c with
      | some d => Cell.s d
      | none => Cell.na))
    match dropna2 df "fecha" "cod" with
    | .error e => .error e
    | .ok df =>
      let df := coerceNumericCols df ["fob", "cif", "peso"]
      match getCol df "cod" with
      | .error e => .error e
      | .ok cod =>
        let df := setCol df "cod"
          (cod.map (fun c => Cell.s (normalize_code_sub (cellStr c))))
        match getCol df "cod" with
        | .error e => .error e
        | .ok cod₂ =>
          let df := setCol df "sector"
            (cod₂.map (fun c => Cell.s (get_sector (cellStr c))))
          match getCol df "desc" with
          | .ok de =>
            .ok (setCol df "label" (de.map (fun c => Cell.s (clean_text_sub c))))
          | .error _ =>
            .ok (setCol df "label"
              (List.replicate (frameNRows df) (Cell.s "Desconocido")))

/-- `appexport.py` lines 185-187: fill the missing output columns before
selecting (`0` for the numeric measures, `""` otherwise). -/
def fillMissingCols (df : Frame) (cols : List String) (numeric : List String) : Frame :=
  cols.foldl (fun d c =>
    if hasCol d c then d
    else setCol d c (List.replicate (frameNRows d)
      (if numeric.contains c then Cell.n 0 else Cell.s ""))) df

/-- The year loop of `appexport.py` lines 182-194. -/
def yearLoop_exp (df : Frame) : List String → List ExpEff × FOut
  | [] => ([], .ok)
  | yr :: rest =>
    match filterByYear df yr with
    | .error _ => ([], .errored)
    | .ok sub =>
      let sub := fillMissingCols sub appCols ["fob", "cif", "peso"]
      match selectRecords sub appCols with
      | .error _ => ([], .errored)
      | .ok recs =>
        match getCol sub "fob" with
        | .error _ => ([ExpEff.write yr recs], .errored)
        | .ok totCol =>
          let (effs, out) := yearLoop_exp df rest
          (ExpEff.write yr recs :: ExpEff.entry yr (sumCol totCol) :: effs, out)

/-- Processing of one file in `appexport.py` lines 118-199. -/
def processFile_exp (f : XFile) : List ExpEff × FOut :=
  match find_header_row f.rows 40 with
  | none => ([], .skipped)
  | some idx =>
    let df := appFrame f idx
    if hasCol df "cod" && hasCol df "fecha_txt" then
      match cook_exp df with
      | .error _ => ([], .errored)
      | .ok df₂ =>
        match yearsOf df₂ with
        | .error _ => ([], .errored)
        | .ok yrs => yearLoop_exp df₂ yrs
    else ([], .skipped)

/-- The `public/data/exports` slice of the filesystem. -/
structure ExpFS where
  yearFiles : String → Option (List (List (String × Cell)))
  summary : Option (List (List (String × JVal)))

def emptyExpFS : ExpFS where
  yearFiles := fun _ => none
  summary := none

def applyExpEff (st : ExpFS × List AppEntry) (e : ExpEff) : ExpFS × List AppEntry :=
  match e with
  | .write yr content =>
    ({ st.1 with
        yearFiles := fun y₂ => if y₂ = yr then some content else st.1.yearFiles y₂ },
      st.2)
  | .entry yr tot => (st.1, applyEntry st.2 yr tot)

def runFiles_exp :
    List XFile → ExpFS × List AppEntry × Nat → ExpFS × List AppEntry × Nat
  | [], st => st
  | f :: fs, (fsys, res, procd) =>
    let (effs, out) := processFile_exp f
    let st₂ := effs.foldl applyExpEff (fsys, res)
    runFiles_exp fs (st₂.1, st₂.2, procd + (if out = FOut.ok then 1 else 0))

/-- `ExportETL.run_process`: keep only export-marked files, configuration
failure when none remain, process the sorted batch, then write
`summary.json` when the index is nonempty. -/
def run_process_exp (files : List XFile) (fsys : ExpFS) : Bool × ExpFS :=
  let files := files.filter (fun f => is_export_file f.name)
  if files.isEmpty then (false, fsys)
  else
    let st := runFiles_exp (sortFilesByName files) (fsys, [], 0)
    let fsys₂ :=
      if st.2.1 ≠ [] then
        { st.1 with summary := some ((sortEntriesDesc st.2.1).map AppEntry.toJson) }
      else st.1
    (decide (0 < st.2.2), fsys₂)

/-! ## ETLCuode (`appcuode.py`) -/

/-- Summary entry of `appcuode.py`:
`{"year": yr, "total_cif": round(total, 2), "file": f"{yr}.json"}` —
note the key `total_cif`. -/
structure CuodeEntry where
  year : String
  total_cif : ℚ
  file : String
deriving DecidableEq

def CuodeEntry.toJson (e : CuodeEntry) : List (String × JVal) :=
  [("year", .s e.year), ("total_cif", .n e.total_cif), ("file", .s e.file)]

/-- Effects of one file in `appcuode.py`: only year file writes (the
summary is rebuilt afterwards from the files). -/
inductive CuodeEff where
  | write (yr : String) (content : List (List (String × Cell)))
deriving DecidableEq

/-- The rename dict of `appcuode.py` lines 139-165 (the description column
is renamed directly to `label`; entries are added only for found
columns). -/
def cuodeRenameAssigns (cols : List String) : List (String × String) :=
  ([(pick cols ["periodo", "periodo:"], "fecha_txt"),
    (pick cols ["codigo subpartida", "codigo subpartida:"], "cod"),
    (pick cols ["subpartida", "descripcion", "descripcion:"], "label"),
    (pick cols ["codigo grupo", "cod grupo", "codigo de grupo"], "grupo_cod"),
    (pick cols ["grupo"], "grupo"),
    (pick cols ["codigo subgrupo", "cod subgrupo", "codigo de subgrupo"], "subgrupo_cod"),
    (pick cols ["subgrupo"], "subgrupo"),
    (pick cols ["tm (peso neto)", "peso neto", "tm peso neto", "tm"], "peso"),
    (pick cols ["fob"], "fob"),
    (pick cols ["cif"], "cif")]).filterMap
    (fun a => a.1.map (fun k => (k, a.2)))

/-- The renamed dataframe of a CUODE file once the header row is known. -/
def cuodeFrame (f : XFile) (idx : Nat) : Frame :=
  let df := buildFrame (f.rows.getD idx []) (f.rows.drop (idx + 1))
  applyRename (cuodeRenameAssigns (colNames df)) df

/-- `appcuode.py` lines 168-202: period, dropna, code cleanup, label (with
the scalar `"Desconocido"` fallback), numeric coercion, group/subgroup
defaults. -/
def cook_cuode (df : Frame) : Except String Frame :=
  match getCol df "fecha_txt" with
  | .error e => .error e
  | .ok ft =>
    let df := setCol df "fecha" (ft.map (fun c =>
      match parse_fecha_any c with
      | some d => Cell.s d
      | none => Cell.na))
    match dropna2 df "fecha" "cod" with
    | .error e => .error e
    | .ok df =>
      match getCol df "cod" with
      | .error e => .error e
      | .ok cod =>
        let df := setCol df "cod"
          (cod.map (fun c => Cell.s (normalize_code_cuode (cellStr c))))
        let df :=
          match df.lookup "label" with
          | some lv => setCol df "label" (lv.map (fun c => Cell.s (clean_text_cuode c)))
          | none => setCol df "label"
              (List.replicate (frameNRows df) (Cell.s "Desconocido"))
        let df := coerceNumericCols df ["fob", "cif", "peso"]
        let df :=
          match df.lookup "grupo_cod" with
          | some gv => setCol df "grupo_cod"
              (gv.map (fun c => Cell.s (pyStripS (cellStr c))))
          | none => setCol df "grupo_cod"
              (List.replicate (frameNRows df) (Cell.s ""))
        let df :=
          match df.lookup "subgrupo_cod" with
          | some gv => setCol df "subgrupo_cod"
              (gv.map (fun c => Cell.s (pyStripS (cellStr c))))
          | none => setCol df "subgrupo_cod"
              (List.replicate (frameNRows df) (Cell.s ""))
        let df :=
          if hasCol df "grupo" then df
          else setCol df "grupo" (List.replicate (frameNRows df) (Cell.s ""))
        let df :=
          if hasCol df "subgrupo" then df
          else setCol df "subgrupo" (List.replicate (frameNRows df) (Cell.s ""))
        .ok df

/-- The columns persisted per year file by `appcuode.py`. -/
def cuodeCols : List String :=
  ["fecha", "cod", "label", "grupo_cod", "grupo", "subgrupo_cod", "subgrupo",
   "fob", "cif", "peso"]

def cuodeTextCols : List String := ["grupo_cod", "grupo", "subgrupo_cod", "subgrupo"]

/-- `appcuode.py` lines 211-213: fill the missing output columns (`""` for
the group/subgroup text columns, `0` otherwise). -/
def fillMissingColsCuode (df : Frame) : Frame :=
  cuodeCols.foldl (fun d c =>
    if hasCol d c then d
    else setCol d c (List.replicate (frameNRows d)
      (if cuodeTextCols.contains c then Cell.s "" else Cell.n 0))) df

/-- The year loop of `appcuode.py` lines 205-217. -/
def yearLoop_cuode (df : Frame) : List String → List CuodeEff × FOut
  | [] => ([], .ok)
  | yr :: rest =>
    match filterByYear df yr with
    | .error _ => ([], .errored)
    | .ok sub =>
      let sub := fillMissingColsCuode sub
      match selectRecords sub cuodeCols with
      | .error _ => ([], .errored)
      | .ok recs =>
        let (effs, out) := yearLoop_cuode df rest
        (CuodeEff.write yr recs :: effs, out)

/-- Processing of one file in `appcuode.py` lines 112-222: locate the
header within 80 rows, check the two mandatory columns, cook, write each
year. -/
def processFile_cuode (f : XFile) : List CuodeEff × FOut :=
  match find_header_row f.rows 80 with
  | none => ([], .skipped)
  | some idx =>
    let cols := colNames (buildFrame (f.rows.getD idx []) (f.rows.drop (idx + 1)))
    if (pick cols ["periodo", "periodo:"]).isSome &&
        (pick cols ["codigo subpartida", "codigo subpartida:"]).isSome then
      match cook_cuode (cuodeFrame f idx) with
      | .error _ => ([], .errored)
      | .ok df₂ =>
        match yearsOf df₂ with
        | .error _ => ([], .errored)
        | .ok yrs => yearLoop_cuode df₂ yrs
    else ([], .skipped)

/-- The `public/data/importscuode` slice of the filesystem. -/
structure CuodeFS where
  yearFiles : String → Option (List (List (String × Cell)))
  summary : Option (List (List (String × JVal)))

def emptyCuodeFS : CuodeFS where
  yearFiles := fun _ => none
  summary := none

/-- `years_written.add(yr)` (a Python set, kept as a duplicate-free
list). -/
def insertOnce (l : List String) (x : String) : List String :=
  if l.contains x then l else l ++ [x]

def applyCuodeEff (st : CuodeFS × List String) (e : CuodeEff) :
    CuodeFS × List String :=
  match e with
  | .write yr content =>
    ({ st.1 with
        yearFiles := fun y₂ => if y₂ = yr then some content else st.1.yearFiles y₂ },
      insertOnce st.2 yr)

def runFiles_cuode :
    List XFile → CuodeFS × List String × Nat → CuodeFS × List String × Nat
  | [], st => st
  | f :: fs, (fsys, yearsW, procd) =>
    let (effs, out) := processFile_cuode f
    let st₂ := effs.foldl applyCuodeEff (fsys, yearsW)
    runFiles_cuode fs (st₂.1, st₂.2, procd + (if out = FOut.ok then 1 else 0))

/-- `appcuode.py` lines 228-233: read the written year file back and sum
its `cif` column; any failure (missing file, missing column) yields 0. -/
def cuodeYearTotal (fsys : CuodeFS) (yr : String) : ℚ :=
  match fsys.yearFiles yr with
  | some recs =>
    if recs.any (fun r => r.any (fun kv => kv.1 == "cif")) then sumRecsKey recs "cif"
    else 0
  | none => 0

/-- `appcuode.py` lines 225-234: one summary entry per written year,
descending. -/
def cuodeSummary (fsys : CuodeFS) (yearsW : List String) :
    List (List (String × JVal)) :=
  (List.insertionSort (fun a b : String => b ≤ a) yearsW).map (fun yr =>
    CuodeEntry.toJson
      { year := yr, total_cif := round2 (cuodeYearTotal fsys yr),
        file := yr ++ ".json" })

/-- `ETLCuode.run_process`. -/
def run_process_cuode (files : List XFile) (fsys : CuodeFS) : Bool × CuodeFS :=
  if files.isEmpty then (false, fsys)
  else
    let st := runFiles_cuode (sortFilesByName files) (fsys, [], 0)
    let fsys₂ :=
      if st.2.1 ≠ [] then { st.1 with summary := some (cuodeSummary st.1 st.2.1) }
      else st.1
    (decide (0 < st.2.2), fsys₂)

/-! ## C5: per-file error isolation and the run-level success flag -/

theorem runFiles_app_procd (fs : List XFile) (fsys : AppFS)
    (res : Tipo → List AppEntry) (p : Nat) :
    (runFiles_app fs (fsys, res, p)).2.2 =
      p + fs.countP (fun f => (processFile_app f).2 == FOut.ok) := by
  induction fs generalizing fsys res p with
  | nil => simp [runFiles_app]
  | cons f fs ih =>
    rw [runFiles_app]
    rw [ih]
    rw [List.countP_cons]
    by_cases h : (processFile_app f).2 = FOut.ok <;> simp [h] <;> omega

theorem runFiles_cuode_procd (fs : List XFile) (fsys : CuodeFS)
    (yw : List String) (p : Nat) :
    (runFiles_cuode fs (fsys, yw, p)).2.2 =
      p + fs.countP (fun f => (processFile_cuode f).2 == FOut.ok) := by
  induction fs generalizing fsys yw p with
  | nil => simp [runFiles_cuode]
  | cons f fs ih =>
    rw [runFiles_cuode]
    rw [ih]
    rw [List.countP_cons]
    by_cases h : (processFile_cuode f).2 = FOut.ok <;> simp [h] <;> omega

theorem countP_sortFiles (files : List XFile) (p : XFile → Bool) :
    (sortFilesByName files).countP p = files.countP p :=
  (List.perm_insertionSort _ files).countP_eq p

/-- C5: in both the `app.py` and the `appcuode.py` engines, a failure in
one file never aborts the batch — every discovered file's outcome is
accounted for — and the run reports success exactly when at least one
file was processed to completion (hence failure exactly when zero files
succeeded). -/
theorem run_batch_success_iff (files : List XFile) (fsA : AppFS) (fsC : CuodeFS) :
    ((run_process_app files fsA).1 = true ↔
      ∃ f ∈ files, (processFile_app f).2 = FOut.ok) ∧
    ((run_process_cuode files fsC).1 = true ↔
      ∃ f ∈ files, (processFile_cuode f).2 = FOut.ok) := by
  constructor
  · unfold run_process_app
    by_cases he : files.isEmpty
    · rw [if_pos he]
      rw [List.isEmpty_iff] at he
      subst he
      simp
    · rw [if_neg he]
      simp only [decide_eq_true_eq]
      rw [runFiles_app_procd, Nat.zero_add, countP_sortFiles]
      rw [List.countP_pos_iff]
      constructor
      · rintro ⟨f, hf, hp⟩
        exact ⟨f, hf, by simpa using hp⟩
      · rintro ⟨f, hf, hp⟩
        exact ⟨f, hf, by simpa using hp⟩
  · unfold run_process_cuode
    by_cases he : files.isEmpty
    · rw [if_pos he]
      rw [List.isEmpty_iff] at he
      subst he
      simp
    · rw [if_neg he]
      simp only [decide_eq_true_eq]
      rw [runFiles_cuode_procd, Nat.zero_add, countP_sortFiles]
      rw [List.countP_pos_iff]
      constructor
      · rintro ⟨f, hf, hp⟩
        exact ⟨f, hf, by simpa using hp⟩
      · rintro ⟨f, hf, hp⟩
        exact ⟨f, hf, by simpa using hp⟩

/-! ## Frame lemmas -/

theorem hasCol_iff {df : Frame} {nm : String} :
    hasCol df nm = true ↔ nm ∈ colNames df := by
  unfold hasCol
  rw [List.contains_iff_exists_mem_beq]
  constructor
  · rintro ⟨a, ha, hb⟩
    rwa [show nm = a from by simpa using hb]
  · intro h
    exact ⟨nm, h, by simp⟩

theorem lookup_isSome_of_hasCol {df : Frame} {nm : String}
    (h : hasCol df nm = true) : (df.lookup nm).isSome := by
  rw [hasCol_iff] at h
  rw [List.lookup_isSome_iff]
  unfold colNames at h
  obtain ⟨p, hp, he⟩ := List.mem_map.mp h
  exact ⟨p, hp, by simp [he]⟩

theorem getCol_ok_of_hasCol {df : Frame} {nm : String}
    (h : hasCol df nm = true) :
    ∃ v, getCol df nm = .ok v ∧ df.lookup nm = some v := by
  obtain ⟨v, hv⟩ := Option.isSome_iff_exists.mp (lookup_isSome_of_hasCol h)
  exact ⟨v, by unfold getCol; rw [hv], hv⟩

theorem lookup_none_of_not_hasCol {df : Frame} {nm : String}
    (h : hasCol df nm = false) : df.lookup nm = none := by
  cases hv : df.lookup nm with
  | none => rfl
  | some v =>
    exfalso
    have h1 : (df.lookup nm).isSome := by rw [hv]; rfl
    rw [List.lookup_isSome_iff] at h1
    obtain ⟨p, hp, he⟩ := h1
    have : nm ∈ colNames df := by
      unfold colNames
      exact List.mem_map.mpr ⟨p, hp, (by simpa using he : nm = p.1).symm⟩
    rw [← hasCol_iff] at this
    rw [h] at this
    exact Bool.false_ne_true this

theorem getCol_error_of_not_hasCol {df : Frame} {nm : String}
    (h : hasCol df nm = false) :
    getCol df nm = .error ("KeyError: " ++ nm) := by
  unfold getCol
  rw [lookup_none_of_not_hasCol h]

theorem colNames_mapVals (df : Frame) (g : String × List Cell → List Cell) :
    colNames (df.map (fun c => (c.1, g c))) = colNames df := by
  unfold colNames
  rw [List.map_map]
  rfl

theorem colNames_setCol_of_hasCol {df : Frame} {nm : String} (v : List Cell)
    (h : hasCol df nm = true) :
    colNames (setCol df nm v) = colNames df := by
  unfold setCol
  rw [if_pos h]
  unfold colNames
  rw [List.map_map]
  apply List.map_congr_left
  intro c _
  by_cases hc : c.1 = nm
  · simp [hc]
  · simp [hc]

theorem colNames_setCol_of_not_hasCol {df : Frame} {nm : String} (v : List Cell)
    (h : hasCol df nm = false) :
    colNames (setCol df nm v) = colNames df ++ [nm] := by
  unfold setCol
  rw [if_neg (by rw [h]; exact Bool.false_ne_true)]
  unfold colNames
  rw [List.map_append]
  rfl

theorem hasCol_setCol (df : Frame) (nm : String) (v : List Cell) (nm2 : String) :
    hasCol (setCol df nm v) nm2 = (hasCol df nm2 || nm2 == nm) := by
  by_cases h : hasCol df nm
  · rw [show (hasCol (setCol df nm v) nm2 = (hasCol df nm2 || nm2 == nm)) ↔ _ from
      Iff.rfl]
    by_cases h2 : nm2 = nm
    · subst h2
      have : hasCol (setCol df nm2 v) nm2 = true := by
        rw [hasCol_iff, colNames_setCol_of_hasCol v h]
        exact hasCol_iff.mp h
      rw [this, h]
      simp
    · have : hasCol (setCol df nm v) nm2 = hasCol df nm2 := by
        cases hc : hasCol df nm2 with
        | true =>
          rw [hasCol_iff, colNames_setCol_of_hasCol v h]
          exact hasCol_iff.mp hc
        | false =>
          rw [← Bool.not_eq_true]
          rw [hasCol_iff, colNames_setCol_of_hasCol v h]
          rw [← hasCol_iff]
          simp [hc]
      rw [this]
      simp [h2]
  · have h' : hasCol df nm = false := Bool.not_eq_true _ |>.mp h
    by_cases h2 : nm2 = nm
    · subst h2
      have : hasCol (setCol df nm2 v) nm2 = true := by
        rw [hasCol_iff, colNames_setCol_of_not_hasCol v h']
        simp
      rw [this, h']
      simp
    · have : hasCol (setCol df nm v) nm2 = hasCol df nm2 := by
        cases hc : hasCol df nm2 with
        | true =>
          rw [hasCol_iff, colNames_setCol_of_not_hasCol v h']
          rw [List.mem_append]
          exact Or.inl (hasCol_iff.mp hc)
        | false =>
          rw [← Bool.not_eq_true]
          rw [hasCol_iff, colNames_setCol_of_not_hasCol v h']
          rw [List.mem_append]
          rintro (hmem | hmem)
          · rw [← hasCol_iff, hc] at hmem
            exact Bool.false_ne_true hmem
          · simp at hmem
            exact h2 hmem
      rw [this]
      simp [h2]

theorem lookup_overwrite (df : Frame) (nm : String) (v : List Cell) :
    (df.map (fun c => if c.1 == nm then (nm, v) else c)).lookup nm =
      (df.lookup nm).map (fun _ => v) := by
  induction df with
  | nil => rfl
  | cons c cs ih =>
    by_cases hc : c.1 = nm
    · have he : (if (c.1 == nm) = true then (nm, v) else c) = (nm, v) := by
        simp [hc]
      rw [List.map_cons, he, show c = (c.1, c.2) from rfl]
      simp [List.lookup_cons, hc]
    · have he : (if (c.1 == nm) = true then (nm, v) else c) = c := by
        simp [hc]
      rw [List.map_cons, he, show c = (c.1, c.2) from rfl]
      have hb : (nm == c.1) = false := by
        simp only [beq_eq_false_iff_ne, ne_eq]
        exact fun h2 => hc h2.symm
      simp only [List.lookup_cons, hb]
      exact ih

theorem lookup_map_ne (df : Frame) (nm nm2 : String) (v : List Cell)
    (h : nm2 ≠ nm) :
    (df.map (fun c => if c.1 == nm then (nm, v) else c)).lookup nm2 =
      df.lookup nm2 := by
  induction df with
  | nil => rfl
  | cons c cs ih =>
    by_cases hc : c.1 = nm
    · have he : (if (c.1 == nm) = true then (nm, v) else c) = (nm, v) := by
        simp [hc]
      rw [List.map_cons, he, show c = (c.1, c.2) from rfl]
      have h1 : (nm2 == nm) = false := by simpa using h
      have h2 : (nm2 == c.1) = false := by
        simp only [beq_eq_false_iff_ne, ne_eq]
        exact fun he2 => h (he2.trans hc)
      simp only [List.lookup_cons, h1, h2]
      exact ih
    · have he : (if (c.1 == nm) = true then (nm, v) else c) = c := by
        simp [hc]
      rw [List.map_cons, he, show c = (c.1, c.2) from rfl]
      cases hb : (nm2 == c.1) with
      | true => simp only [List.lookup_cons, hb]
      | false =>
        simp only [List.lookup_cons, hb]
        exact ih

theorem lookup_append_left_none {l₁ l₂ : List (String × List Cell)} {nm : String}
    (h : l₁.lookup nm = none) : (l₁ ++ l₂).lookup nm = l₂.lookup nm := by
  induction l₁ with
  | nil => rfl
  | cons c cs ih =>
    rw [show c = (c.1, c.2) from rfl] at h ⊢
    rw [List.cons_append]
    rw [List.lookup_cons] at h ⊢
    cases hb : (nm == c.1) with
    | true => rw [hb] at h; simp at h
    | false =>
      rw [hb] at h
      simp only []
      exact ih h

theorem lookup_setCol_self (df : Frame) (nm : String) (v : List Cell) :
    (setCol df nm v).lookup nm = some v := by
  unfold setCol
  by_cases h : hasCol df nm
  · rw [if_pos h]
    rw [lookup_overwrite]
    obtain ⟨w, hw⟩ := Option.isSome_iff_exists.mp (lookup_isSome_of_hasCol h)
    rw [hw]
    rfl
  · rw [if_neg h]
    have h' : hasCol df nm = false := Bool.not_eq_true _ |>.mp h
    rw [lookup_append_left_none (lookup_none_of_not_hasCol h')]
    rw [List.lookup_cons_self]

theorem lookup_setCol_ne (df : Frame) (nm nm2 : String) (v : List Cell)
    (h : nm2 ≠ nm) :
    (setCol df nm v).lookup nm2 = df.lookup nm2 := by
  unfold setCol
  by_cases hc : hasCol df nm
  · rw [if_pos hc]
    exact lookup_map_ne df nm nm2 v h
  · rw [if_neg hc]
    cases hl : df.lookup nm2 with
    | some w =>
      clear hc
      induction df with
      | nil => simp at hl
      | cons c cs ih =>
        rw [show c = (c.1, c.2) from rfl] at hl ⊢
        rw [List.cons_append]
        rw [List.lookup_cons] at hl ⊢
        cases hb : (nm2 == c.1) with
        | true => rw [hb] at hl; exact hl
        | false => rw [hb] at hl; exact ih hl
    | none =>
      rw [lookup_append_left_none hl]
      rw [List.lookup_cons]
      have hb : (nm2 == nm) = false := by simpa using h
      rw [hb]
      rfl

theorem hasCol_of_lookup_some {df : Frame} {nm : String} {v : List Cell}
    (h : df.lookup nm = some v) : hasCol df nm = true := by
  cases hc : hasCol df nm with
  | true => rfl
  | false => rw [lookup_none_of_not_hasCol hc] at h; exact Option.noConfusion h

theorem hasCol_congr {d1 d2 : Frame} (h : colNames d1 = colNames d2)
    (x : String) : hasCol d1 x = hasCol d2 x := by
  unfold hasCol
  rw [h]

theorem colNames_coerceStep (df : Frame) (nm : String) :
    colNames (match df.lookup nm with
      | some vals => setCol df nm (vals.map coerceNum)
      | none => df) = colNames df := by
  cases h : df.lookup nm with
  | some vals => exact colNames_setCol_of_hasCol _ (hasCol_of_lookup_some h)
  | none => rfl

theorem colNames_coerceNumericCols (df : Frame) (names : List String) :
    colNames (coerceNumericCols df names) = colNames df := by
  induction names generalizing df with
  | nil => rfl
  | cons nm rest ih =>
    unfold coerceNumericCols
    rw [List.foldl_cons]
    rw [show rest.foldl _ _ = coerceNumericCols (match df.lookup nm with
      | some vals => setCol df nm (vals.map coerceNum)
      | none => df) rest from rfl]
    rw [ih]
    exact colNames_coerceStep df nm

theorem dropna2_ok {df : Frame} {c1 c2 : String}
    (h1 : hasCol df c1 = true) (h2 : hasCol df c2 = true) :
    ∃ df₂, dropna2 df c1 c2 = .ok df₂ ∧ colNames df₂ = colNames df := by
  obtain ⟨v1, hv1, -⟩ := getCol_ok_of_hasCol h1
  obtain ⟨v2, hv2, -⟩ := getCol_ok_of_hasCol h2
  refine ⟨df.map (fun c =>
      (c.1, applyMask (List.zipWith (fun a b => a != Cell.na && b != Cell.na) v1 v2) c.2)),
    ?_, colNames_mapVals df _⟩
  unfold dropna2
  rw [hv1, hv2]

theorem filterByYear_ok {df : Frame} (yr : String)
    (h : hasCol df "fecha" = true) :
    ∃ sub, filterByYear df yr = .ok sub ∧ colNames sub = colNames df := by
  obtain ⟨fe, hfe, -⟩ := getCol_ok_of_hasCol h
  refine ⟨df.map (fun c =>
      (c.1, applyMask (fe.map (fun c => yr.data.isPrefixOf (cellStr c).data)) c.2)),
    ?_, colNames_mapVals df _⟩
  unfold filterByYear
  rw [hfe]

theorem getCols_ok {df : Frame} {cols : List String}
    (h : ∀ c ∈ cols, hasCol df c = true) :
    ∃ r, getCols df cols = .ok r ∧
      r.map Prod.fst = cols ∧ ∀ p ∈ r, df.lookup p.1 = some p.2 := by
  induction cols with
  | nil => exact ⟨[], rfl, rfl, by simp⟩
  | cons cn rest ih =>
    obtain ⟨v, hv, hl⟩ := getCol_ok_of_hasCol (h cn (by simp))
    obtain ⟨r, hr, hk, hp⟩ := ih (fun c hc => h c (List.mem_cons_of_mem _ hc))
    refine ⟨(cn, v) :: r, ?_, by simp [hk], ?_⟩
    · rw [getCols, hv, hr]
    · rintro p hp2
      rcases List.mem_cons.mp hp2 with rfl | hp3
      · exact hl
      · exact hp p hp3

theorem selectRecords_ok {df : Frame} {cols : List String}
    (h : ∀ c ∈ cols, hasCol df c = true) :
    ∃ recs, selectRecords df cols = .ok recs := by
  obtain ⟨r, hr, -, -⟩ := getCols_ok h
  exact ⟨_, by unfold selectRecords; rw [hr]⟩

theorem fill_hasCol_mono {cols numeric : List String} :
    ∀ {df : Frame} {x : String}, hasCol df x = true →
      hasCol (fillMissingCols df cols numeric) x = true := by
  induction cols with
  | nil => intro df x h; exact h
  | cons c rest ih =>
    intro df x h
    unfold fillMissingCols
    rw [List.foldl_cons]
    refine @ih (if hasCol df c then df
      else setCol df c (List.replicate (frameNRows df)
        (if numeric.contains c then Cell.n 0 else Cell.s ""))) x ?_
    by_cases hc : hasCol df c
    · rw [if_pos hc]; exact h
    · rw [if_neg hc]
      rw [hasCol_setCol, h]
      rfl

theorem fill_hasCol_mem {cols numeric : List String} :
    ∀ {df : Frame} {x : String}, x ∈ cols →
      hasCol (fillMissingCols df cols numeric) x = true := by
  induction cols with
  | nil => intro df x hx; simp at hx
  | cons c rest ih =>
    intro df x hx
    rcases List.mem_cons.mp hx with rfl | hx2
    · unfold fillMissingCols
      rw [List.foldl_cons]
      refine @fill_hasCol_mono rest numeric _ _ ?_
      by_cases hc : hasCol df x
      · rw [if_pos hc]; exact hc
      · rw [if_neg hc]
        rw [hasCol_setCol]
        simp
    · unfold fillMissingCols
      rw [List.foldl_cons]
      exact ih hx2

theorem yearsOf_ok {df : Frame} (h : hasCol df "fecha" = true) :
    ∃ yrs, yearsOf df = .ok yrs := by
  obtain ⟨fe, hfe, -⟩ := getCol_ok_of_hasCol h
  exact ⟨_, by unfold yearsOf; rw [hfe]⟩

theorem getCol_setCol_self (df : Frame) (nm : String) (v : List Cell) :
    getCol (setCol df nm v) nm = .ok v := by
  unfold getCol
  rw [lookup_setCol_self]

theorem cook_exp_ok {df : Frame}
    (hft : hasCol df "fecha_txt" = true) (hcod : hasCol df "cod" = true) :
    ∃ df₂, cook_exp df = .ok df₂ ∧ hasCol df₂ "fecha" = true ∧
      (hasCol df "desc" = false →
        ∃ n, df₂.lookup "label" = some (List.replicate n (Cell.s "Desconocido"))) := by
  obtain ⟨ft, hftv, -⟩ := getCol_ok_of_hasCol hft
  unfold cook_exp
  simp only [hftv]
  have h1 : hasCol (setCol df "fecha" (ft.map (fun c =>
      match parse_fecha c with
      | some d => Cell.s d
      | none => Cell.na))) "fecha" = true := by
    rw [hasCol_setCol]; simp
  have h2 : hasCol (setCol df "fecha" (ft.map (fun c =>
      match parse_fecha c with
      | some d => Cell.s d
      | none => Cell.na))) "cod" = true := by
    rw [hasCol_setCol, hcod]; rfl
  obtain ⟨dfb, hdrop, hnb⟩ := dropna2_ok h1 h2
  simp only [hdrop]
  have h3 : hasCol (coerceNumericCols dfb ["fob", "cif", "peso"]) "cod" = true := by
    rw [hasCol_congr (colNames_coerceNumericCols dfb _) "cod"]
    rw [hasCol_congr hnb "cod"]
    exact h2
  obtain ⟨codv, hcodv, -⟩ := getCol_ok_of_hasCol h3
  simp only [hcodv]
  simp only [getCol_setCol_self]
  have h4 : hasCol (setCol (setCol (coerceNumericCols dfb ["fob", "cif", "peso"]) "cod"
      (codv.map (fun c => Cell.s (normalize_code_sub (cellStr c))))) "sector"
      ((codv.map (fun c => Cell.s (normalize_code_sub (cellStr c)))).map
        (fun c => Cell.s (get_sector (cellStr c))))) "desc" = hasCol df "desc" := by
    rw [hasCol_setCol, hasCol_setCol]
    rw [hasCol_congr (colNames_coerceNumericCols dfb _) "desc"]
    rw [hasCol_congr hnb "desc"]
    rw [hasCol_setCol]
    simp
  have h5 : hasCol (setCol (setCol (coerceNumericCols dfb ["fob", "cif", "peso"]) "cod"
      (codv.map (fun c => Cell.s (normalize_code_sub (cellStr c))))) "sector"
      ((codv.map (fun c => Cell.s (normalize_code_sub (cellStr c)))).map
        (fun c => Cell.s (get_sector (cellStr c))))) "fecha" = true := by
    rw [hasCol_setCol, hasCol_setCol]
    rw [hasCol_congr (colNames_coerceNumericCols dfb _) "fecha"]
    rw [hasCol_congr hnb "fecha"]
    rw [hasCol_setCol]
    simp
  by_cases hdesc0 : hasCol df "desc" = true
  · rw [← h4] at hdesc0
    obtain ⟨dv, hdv, -⟩ := getCol_ok_of_hasCol hdesc0
    simp only [hdv]
    refine ⟨_, rfl, ?_, ?_⟩
    · rw [hasCol_setCol, h5]; rfl
    · intro hcontra
      rw [← h4] at hcontra
      rw [hdesc0] at hcontra
      exact absurd hcontra (by simp)
  · have hdesc1 : hasCol df "desc" = false := Bool.not_eq_true _ |>.mp hdesc0
    rw [← h4] at hdesc1
    rw [getCol_error_of_not_hasCol hdesc1]
    simp only []
    refine ⟨_, rfl, ?_, ?_⟩
    · rw [hasCol_setCol, h5]; rfl
    · intro _
      exact ⟨_, lookup_setCol_self _ _ _⟩

theorem cook_app_error_of_no_desc {df : Frame}
    (hft : hasCol df "fecha_txt" = true) (hcod : hasCol df "cod" = true)
    (hdesc : hasCol df "desc" = false) :
    ∃ e, cook_app df = .error e := by
  obtain ⟨ft, hftv, -⟩ := getCol_ok_of_hasCol hft
  unfold cook_app
  simp only [hftv]
  have h1 : hasCol (setCol df "fecha" (ft.map (fun c =>
      match parse_fecha c with
      | some d => Cell.s d
      | none => Cell.na))) "fecha" = true := by
    rw [hasCol_setCol]; simp
  have h2 : hasCol (setCol df "fecha" (ft.map (fun c =>
      match parse_fecha c with
      | some d => Cell.s d
      | none => Cell.na))) "cod" = true := by
    rw [hasCol_setCol, hcod]; rfl
  obtain ⟨dfb, hdrop, hnb⟩ := dropna2_ok h1 h2
  simp only [hdrop]
  have h3 : hasCol (coerceNumericCols dfb ["fob", "cif", "peso"]) "cod" = true := by
    rw [hasCol_congr (colNames_coerceNumericCols dfb _) "cod"]
    rw [hasCol_congr hnb "cod"]
    exact h2
  obtain ⟨codv, hcodv, -⟩ := getCol_ok_of_hasCol h3
  simp only [hcodv]
  simp only [getCol_setCol_self]
  have h4 : hasCol (setCol (setCol (coerceNumericCols dfb ["fob", "cif", "peso"]) "cod"
      (codv.map (fun c => Cell.s (normalize_code_sub (cellStr c))))) "sector"
      ((codv.map (fun c => Cell.s (normalize_code_sub (cellStr c)))).map
        (fun c => Cell.s (get_sector (cellStr c))))) "desc" = false := by
    rw [hasCol_setCol, hasCol_setCol]
    rw [hasCol_congr (colNames_coerceNumericCols dfb _) "desc"]
    rw [hasCol_congr hnb "desc"]
    rw [hasCol_setCol]
    simp [hdesc]
  rw [getCol_error_of_not_hasCol h4]
  exact ⟨_, rfl⟩

theorem yearLoop_exp_ok {df : Frame} (hfe : hasCol df "fecha" = true) :
    ∀ yrs, (yearLoop_exp df yrs).2 = FOut.ok := by
  intro yrs
  induction yrs with
  | nil => rfl
  | cons yr rest ih =>
    rw [yearLoop_exp]
    obtain ⟨sub, hsub, -⟩ := filterByYear_ok yr hfe
    rw [hsub]
    obtain ⟨recs, hrecs⟩ :=
      @selectRecords_ok (fillMissingCols sub appCols ["fob", "cif", "peso"])
        appCols (fun c hc => fill_hasCol_mem hc)
    simp only [hrecs]
    obtain ⟨tv, htv, -⟩ :=
      getCol_ok_of_hasCol (@fill_hasCol_mem appCols ["fob", "cif", "peso"] sub "fob"
        (show "fob" ∈ appCols by simp [appCols]))
    simp only [htv]
    exact ih

theorem processFile_exp_ok_of {f : XFile} {idx : Nat}
    (hh : find_header_row f.rows 40 = some idx)
    (hcod : hasCol (appFrame f idx) "cod" = true)
    (hft : hasCol (appFrame f idx) "fecha_txt" = true) :
    (processFile_exp f).2 = FOut.ok := by
  unfold processFile_exp
  simp only [hh]
  rw [if_pos (by rw [hcod, hft]; rfl)]
  obtain ⟨df₂, hcook, hfe, -⟩ := cook_exp_ok hft hcod
  simp only [hcook]
  obtain ⟨yrs, hyrs⟩ := yearsOf_ok hfe
  simp only [hyrs]
  exact yearLoop_exp_ok hfe yrs

theorem processFile_app_errored_of {f : XFile} {idx : Nat}
    (hh : find_header_row f.rows 40 = some idx)
    (hcod : hasCol (appFrame f idx) "cod" = true)
    (hft : hasCol (appFrame f idx) "fecha_txt" = true)
    (hdesc : hasCol (appFrame f idx) "desc" = false) :
    processFile_app f = ([], FOut.errored) := by
  unfold processFile_app
  simp only [hh]
  rw [if_pos (by rw [hcod, hft]; rfl)]
  obtain ⟨e, herr⟩ := cook_app_error_of_no_desc hft hcod hdesc
  simp only [herr]

/-- Concrete input exercising C4: the two mandatory columns resolve, and
the description column is absent. -/
def c4File : XFile where
  name := "2021-import.xlsx"
  rows :=
    [[Cell.s "Período", Cell.s "Código Subpartida", Cell.s "FOB", Cell.s "CIF",
      Cell.s "TM (Peso Neto)"],
     [Cell.s "2021 / 01 - Enero", Cell.s "0302.11", Cell.s "1000", Cell.s "1200",
      Cell.s "5"]]

/-- C4 counterexample: an input file whose mandatory fields (period and
code) resolve but whose description column is absent makes `app.py` raise
a `KeyError` at `df["desc"]` (line 152): the file is recorded as errored
— not processed — and a single-file run reports failure.  The absence of
this non-mandatory field does fail the file in the subheading imports
flow. -/
theorem desc_default_claim_false :
    (processFile_app c4File).2 = FOut.errored ∧
    (run_process_app [c4File] emptyAppFS).1 = false := by
  constructor
  · decide
  · decide

/-- C4 (amended): when the two mandatory fields resolve but the
description column is absent, the exports flow (`appexport.py`, whose
`df["desc"]` access is guarded) still processes the file successfully and
the label column degrades to the `"Desconocido"` sentinel; the subheading
imports flow (`app.py`) instead raises at the file boundary and the file
fails — with no effects — while the batch continues. -/
theorem desc_default_amended (f : XFile) (idx : Nat)
    (hh : find_header_row f.rows 40 = some idx)
    (hcod : hasCol (appFrame f idx) "cod" = true)
    (hft : hasCol (appFrame f idx) "fecha_txt" = true)
    (hdesc : hasCol (appFrame f idx) "desc" = false) :
    (processFile_exp f).2 = FOut.ok ∧
    (∃ df₂ n, cook_exp (appFrame f idx) = .ok df₂ ∧
      df₂.lookup "label" = some (List.replicate n (Cell.s "Desconocido"))) ∧
    processFile_app f = ([], FOut.errored) := by
  refine ⟨processFile_exp_ok_of hh hcod hft, ?_,
    processFile_app_errored_of hh hcod hft hdesc⟩
  obtain ⟨df₂, hcook, -, hlabel⟩ := cook_exp_ok hft hcod
  obtain ⟨n, hn⟩ := hlabel hdesc
  exact ⟨df₂, n, hcook, hn⟩

theorem desc_default_amended_witness :
    (processFile_exp c4File).2 = FOut.ok ∧
    processFile_app c4File = ([], FOut.errored) := by
  have h := desc_default_amended c4File 0 (by decide) (by decide) (by decide) (by decide)
  exact ⟨h.1, h.2.2⟩

/-! ## C3 / C9 / C10 infrastructure: the summary state of a run -/

/-- The action of one effect on the in-memory summary index of `app.py`. -/
def entryStep_app (r : Tipo → List AppEntry) (e : AppEff) : Tipo → List AppEntry :=
  match e with
  | .entry t yr tot => fun t₂ => if t₂ = t then applyEntry (r t₂) yr tot else r t₂
  | .write _ _ _ => r

/-- The in-memory summary index `resumen` produced by one run of `app.py`
over a batch (it depends only on the files, not on the prior
filesystem). -/
def runResumen_app (files : List XFile) : Tipo → List AppEntry :=
  (sortFilesByName files).foldl
    (fun r f => (processFile_app f).1.foldl entryStep_app r) (fun _ => [])

/-- The action of one effect on the summary index of `appexport.py`. -/
def entryStep_exp (r : List AppEntry) (e : ExpEff) : List AppEntry :=
  match e with
  | .entry yr tot => applyEntry r yr tot
  | .write _ _ => r

/-- The summary index produced by one run of `appexport.py` (also
independent of the prior filesystem). -/
def runResumen_exp (files : List XFile) : List AppEntry :=
  (sortFilesByName (files.filter (fun f => is_export_file f.name))).foldl
    (fun r f => (processFile_exp f).1.foldl entryStep_exp r) []

/-- The action of one effect on `years_written` in `appcuode.py`. -/
def yearsStep_cuode (yw : List String) (e : CuodeEff) : List String :=
  match e with
  | .write yr _ => insertOnce yw yr

/-- The set of years written by one run of `appcuode.py`. -/
def runYearsW_cuode (files : List XFile) : List String :=
  (sortFilesByName files).foldl
    (fun yw f => (processFile_cuode f).1.foldl yearsStep_cuode yw) []

theorem foldl_applyAppEff_snd (effs : List AppEff) (fsys : AppFS)
    (res : Tipo → List AppEntry) :
    (effs.foldl applyAppEff (fsys, res)).2 = effs.foldl entryStep_app res := by
  induction effs generalizing fsys res with
  | nil => rfl
  | cons e rest ih =>
    rw [List.foldl_cons, List.foldl_cons]
    cases e with
    | write t yr content => exact ih _ _
    | entry t yr tot => exact ih _ _

theorem runFiles_app_resumen (fs : List XFile) (fsys : AppFS)
    (res : Tipo → List AppEntry) (p : Nat) :
    (runFiles_app fs (fsys, res, p)).2.1 =
      fs.foldl (fun r f => (processFile_app f).1.foldl entryStep_app r) res := by
  induction fs generalizing fsys res p with
  | nil => rfl
  | cons f rest ih =>
    rw [List.foldl_cons]
    rcases hpf : processFile_app f with ⟨effs, out⟩
    rw [runFiles_app]
    simp only [hpf]
    rw [ih]
    rw [foldl_applyAppEff_snd]

theorem foldl_applyExpEff_snd (effs : List ExpEff) (fsys : ExpFS)
    (res : List AppEntry) :
    (effs.foldl applyExpEff (fsys, res)).2 = effs.foldl entryStep_exp res := by
  induction effs generalizing fsys res with
  | nil => rfl
  | cons e rest ih =>
    rw [List.foldl_cons, List.foldl_cons]
    cases e with
    | write yr content => exact ih _ _
    | entry yr tot => exact ih _ _

theorem runFiles_exp_resumen (fs : List XFile) (fsys : ExpFS)
    (res : List AppEntry) (p : Nat) :
    (runFiles_exp fs (fsys, res, p)).2.1 =
      fs.foldl (fun r f => (processFile_exp f).1.foldl entryStep_exp r) res := by
  induction fs generalizing fsys res p with
  | nil => rfl
  | cons f rest ih =>
    rw [List.foldl_cons]
    rcases hpf : processFile_exp f with ⟨effs, out⟩
    rw [runFiles_exp]
    simp only [hpf]
    rw [ih]
    rw [foldl_applyExpEff_snd]

theorem foldl_applyCuodeEff_snd (effs : List CuodeEff) (fsys : CuodeFS)
    (yw : List String) :
    (effs.foldl applyCuodeEff (fsys, yw)).2 = effs.foldl yearsStep_cuode yw := by
  induction effs generalizing fsys yw with
  | nil => rfl
  | cons e rest ih =>
    rw [List.foldl_cons, List.foldl_cons]
    cases e with
    | write yr content => exact ih _ _

theorem runFiles_cuode_yearsW (fs : List XFile) (fsys : CuodeFS)
    (yw : List String) (p : Nat) :
    (runFiles_cuode fs (fsys, yw, p)).2.1 =
      fs.foldl (fun y f => (processFile_cuode f).1.foldl yearsStep_cuode y) yw := by
  induction fs generalizing fsys yw p with
  | nil => rfl
  | cons f rest ih =>
    rw [List.foldl_cons]
    rcases hpf : processFile_cuode f with ⟨effs, out⟩
    rw [runFiles_cuode]
    simp only [hpf]
    rw [ih]
    rw [foldl_applyCuodeEff_snd]

theorem writeSummaries_app_summaries (fsys : AppFS) (res : Tipo → List AppEntry)
    (t : Tipo) :
    (writeSummaries_app fsys res).summaries t =
      if res t = [] then fsys.summaries t
      else some ((sortEntriesDesc (res t)).map AppEntry.toJson) := by
  unfold writeSummaries_app
  by_cases hi : res Tipo.imports = [] <;> by_cases he : res Tipo.exports = [] <;>
    cases t <;> simp [hi, he]

theorem sorted_sortEntriesDesc (l : List AppEntry) :
    List.Sorted (fun a b : AppEntry => b.year ≤ a.year) (sortEntriesDesc l) := by
  haveI : IsTotal AppEntry (fun a b => b.year ≤ a.year) :=
    ⟨fun a b => le_total b.year a.year⟩
  haveI : IsTrans AppEntry (fun a b => b.year ≤ a.year) :=
    ⟨fun _ _ _ hab hbc => le_trans hbc hab⟩
  exact List.sorted_insertionSort _ l

theorem sorted_stringsDesc (l : List String) :
    List.Sorted (fun a b : String => b ≤ a)
      (List.insertionSort (fun a b : String => b ≤ a) l) := by
  haveI : IsTotal String (fun a b : String => b ≤ a) := ⟨fun a b => le_total b a⟩
  haveI : IsTrans String (fun a b : String => b ≤ a) :=
    ⟨fun _ _ _ hab hbc => le_trans hbc hab⟩
  exact List.sorted_insertionSort _ l

/-- The `year` value of a persisted summary object. -/
def jsonYear (e : List (String × JVal)) : String :=
  match e.lookup "year" with
  | some (.s y) => y
  | _ => ""

theorem jsonYear_toJson_app (e : AppEntry) : jsonYear (AppEntry.toJson e) = e.year := rfl

theorem jsonYear_toJson_cuode (e : CuodeEntry) :
    jsonYear (CuodeEntry.toJson e) = e.year := rfl

/-- Concrete CUODE input: a single bare-year period row. -/
def c3File : XFile where
  name := "cuode-2020.xlsx"
  rows :=
    [[Cell.s "Período", Cell.s "Código Subpartida", Cell.s "Subpartida",
      Cell.s "FOB", Cell.s "CIF", Cell.s "TM (Peso Neto)"],
     [Cell.s "2020", Cell.s "0302.11", Cell.s "SALMONES",
      Cell.s "10", Cell.s "20", Cell.s "1"]]

/-- C3 counterexample: a run of the CUODE flow persists summary objects
whose keys are `year`, `total_cif`, `file` — not `year`, `total`, `file`
as the claim states for every flow. -/
theorem summary_keys_claim_false :
    ((run_process_cuode [c3File] emptyCuodeFS).2.summary).map
        (fun js => js.map (fun e => e.map Prod.fst)) =
      some [["year", "total_cif", "file"]] ∧
    ("total_cif" : String) ≠ "total" := by
  constructor
  · decide
  · decide

/-- C3 (amended): whenever a run writes at least one year file for a flow,
the persisted summary index of that flow is an array of objects sorted
descending by year; in the subheading flows each object has exactly the
keys `year`, `total` (the flow's primary aggregate rounded to 2 decimals)
and `file`, while in the CUODE flow the value key is `total_cif` instead
of `total`. -/
theorem summary_shape_amended (files : List XFile) (fsA : AppFS) (fsC : CuodeFS) :
    (∀ t, runResumen_app files t ≠ [] →
      (run_process_app files fsA).2.summaries t =
        some ((sortEntriesDesc (runResumen_app files t)).map AppEntry.toJson) ∧
      (∀ e ∈ (sortEntriesDesc (runResumen_app files t)).map AppEntry.toJson,
        e.map Prod.fst = ["year", "total", "file"]) ∧
      List.Sorted (fun a b : String => b ≤ a)
        (((sortEntriesDesc (runResumen_app files t)).map AppEntry.toJson).map jsonYear)) ∧
    (runYearsW_cuode files ≠ [] →
      ∃ js, (run_process_cuode files fsC).2.summary = some js ∧
        (∀ e ∈ js, e.map Prod.fst = ["year", "total_cif", "file"]) ∧
        List.Sorted (fun a b : String => b ≤ a) (js.map jsonYear)) := by
  constructor
  · intro t hne
    have hfe : ¬files.isEmpty = true := by
      intro hemp
      rw [List.isEmpty_iff] at hemp
      subst hemp
      exact hne rfl
    unfold run_process_app
    rw [if_neg hfe]
    simp only []
    rw [writeSummaries_app_summaries]
    rw [runFiles_app_resumen]
    have hrr : (sortFilesByName files).foldl
        (fun r f => (processFile_app f).1.foldl entryStep_app r) (fun _ => []) =
        runResumen_app files := rfl
    rw [hrr, if_neg hne]
    refine ⟨rfl, ?_, ?_⟩
    · rintro e he
      rcases List.mem_map.mp he with ⟨x, -, rfl⟩
      rfl
    · rw [List.map_map]
      exact (sorted_sortEntriesDesc (runResumen_app files t)).map _ (fun a b h => h)
  · intro hne
    have hfe : ¬files.isEmpty = true := by
      intro hemp
      rw [List.isEmpty_iff] at hemp
      subst hemp
      exact hne rfl
    unfold run_process_cuode
    rw [if_neg hfe]
    have hyw : (runFiles_cuode (sortFilesByName files) (fsC, [], 0)).2.1 =
        runYearsW_cuode files := by
      rw [runFiles_cuode_yearsW]
      rfl
    simp only [hyw]
    rw [if_pos hne]
    refine ⟨_, rfl, ?_, ?_⟩
    · rintro e he
      rcases List.mem_map.mp he with ⟨x, -, rfl⟩
      rfl
    · unfold cuodeSummary
      rw [List.map_map]
      exact (sorted_stringsDesc (runYearsW_cuode files)).map _ (fun a b h => h)

/-- Concrete subheading-imports input with every column present. -/
def appOkFile : XFile where
  name := "2021-subpartidas.xlsx"
  rows :=
    [[Cell.s "Período", Cell.s "Código Subpartida", Cell.s "Subpartida",
      Cell.s "FOB", Cell.s "CIF", Cell.s "TM (Peso Neto)"],
     [Cell.s "2021 / 01 - Enero", Cell.s "0302.11", Cell.s "SALMONES",
      Cell.s "1000", Cell.s "1200", Cell.s "5"]]

theorem summary_shape_amended_witness :
    (run_process_app [appOkFile] emptyAppFS).2.summaries Tipo.imports =
      some ((sortEntriesDesc (runResumen_app [appOkFile] Tipo.imports)).map
        AppEntry.toJson) ∧
    (run_process_cuode [c3File] emptyCuodeFS).2.summary.isSome = true := by
  constructor
  · exact ((summary_shape_amended [appOkFile] emptyAppFS emptyCuodeFS).1
      Tipo.imports (by decide)).1
  · obtain ⟨js, hjs, -, -⟩ :=
      (summary_shape_amended [c3File] emptyAppFS emptyCuodeFS).2 (by decide)
    rw [hjs]
    rfl

/-! ## C10 infrastructure: years written by a run -/

/-- Collect the years of the write effects of one flow. -/
def writeYearsStep_app (t : Tipo) (acc : List String) (e : AppEff) : List String :=
  match e with
  | .write t₂ yr _ => if t₂ = t then acc ++ [yr] else acc
  | .entry _ _ _ => acc

/-- The years for which a run of `app.py` writes a year file of flow
`t`. -/
def runWriteYears_app (files : List XFile) (t : Tipo) : List String :=
  (sortFilesByName files).foldl
    (fun acc f => (processFile_app f).1.foldl (writeYearsStep_app t) acc) []

theorem writeYears_foldl_mono {t : Tipo} {x : String} :
    ∀ (effs : List AppEff) (acc : List String), x ∈ acc →
      x ∈ effs.foldl (writeYearsStep_app t) acc := by
  intro effs
  induction effs with
  | nil => intro acc h; exact h
  | cons e rest ih =>
    intro acc h
    rw [List.foldl_cons]
    refine ih _ ?_
    cases e with
    | entry _ _ _ => exact h
    | write t₂ yr _ =>
      simp only [writeYearsStep_app]
      by_cases ht : t₂ = t
      · rw [if_pos ht]
        exact List.mem_append_left _ h
      · rw [if_neg ht]
        exact h

theorem writeYears_foldl_intro {t : Tipo} {yr : String}
    {content : List (List (String × Cell))} :
    ∀ (effs : List AppEff) (acc : List String),
      AppEff.write t yr content ∈ effs →
      yr ∈ effs.foldl (writeYearsStep_app t) acc := by
  intro effs
  induction effs with
  | nil => intro acc h; simp at h
  | cons e rest ih =>
    intro acc h
    rw [List.foldl_cons]
    rcases List.mem_cons.mp h with rfl | h2
    · refine writeYears_foldl_mono rest _ ?_
      simp [writeYearsStep_app]
    · exact ih _ h2

theorem files_writeYears_mono {t : Tipo} {x : String} :
    ∀ (fs : List XFile) (acc : List String), x ∈ acc →
      x ∈ fs.foldl (fun a f =>
        (processFile_app f).1.foldl (writeYearsStep_app t) a) acc := by
  intro fs
  induction fs with
  | nil => intro acc h; exact h
  | cons f rest ih =>
    intro acc h
    rw [List.foldl_cons]
    exact ih _ (writeYears_foldl_mono _ _ h)

theorem files_writeYears_intro {t : Tipo} {yr : String}
    {content : List (List (String × Cell))} :
    ∀ (fs : List XFile) (acc : List String) (f : XFile), f ∈ fs →
      AppEff.write t yr content ∈ (processFile_app f).1 →
      yr ∈ fs.foldl (fun a g =>
        (processFile_app g).1.foldl (writeYearsStep_app t) a) acc := by
  intro fs
  induction fs with
  | nil => intro acc f hf _; simp at hf
  | cons g rest ih =>
    intro acc f hf hw
    rw [List.foldl_cons]
    rcases List.mem_cons.mp hf with rfl | hf2
    · exact files_writeYears_mono rest _ (writeYears_foldl_intro _ _ hw)
    · exact ih _ f hf2 hw

theorem yearLoop_app_pairing (t : Tipo) (df : Frame) :
    ∀ yrs t₂ yr tot, AppEff.entry t₂ yr tot ∈ (yearLoop_app t df yrs).1 →
      ∃ content, AppEff.write t₂ yr content ∈ (yearLoop_app t df yrs).1 := by
  intro yrs
  induction yrs with
  | nil =>
    intro t₂ yr tot h
    simp [yearLoop_app] at h
  | cons y rest ih =>
    intro t₂ yr tot h
    rw [yearLoop_app] at h ⊢
    cases hf : filterByYear df y with
    | error e => simp [hf] at h
    | ok sub =>
      simp only [hf] at h ⊢
      cases hs : selectRecords sub appCols with
      | error e => simp [hs] at h
      | ok recs =>
        simp only [hs] at h ⊢
        cases hg : getCol sub (if t = Tipo.imports then "cif" else "fob") with
        | error e =>
          simp [hg] at h
        | ok totCol =>
          simp only [hg] at h ⊢
          rcases List.mem_cons.mp h with h1 | h2
          · exact absurd h1 (by simp)
          · rcases List.mem_cons.mp h2 with h3 | h4
            · obtain ⟨rfl, rfl, -⟩ : t₂ = t ∧ yr = y ∧ tot = sumCol totCol := by
                simpa using h3
              exact ⟨recs, List.mem_cons_self _ _⟩
            · obtain ⟨content, hc⟩ := ih t₂ yr tot h4
              exact ⟨content, List.mem_cons_of_mem _ (List.mem_cons_of_mem _ hc)⟩

theorem processFile_app_pairing (f : XFile) :
    ∀ t yr tot, AppEff.entry t yr tot ∈ (processFile_app f).1 →
      ∃ content, AppEff.write t yr content ∈ (processFile_app f).1 := by
  intro t yr tot h
  unfold processFile_app at h ⊢
  cases hh : find_header_row f.rows 40 with
  | none => simp [hh] at h
  | some idx =>
    simp only [hh] at h ⊢
    by_cases hm : (hasCol (appFrame f idx) "cod" && hasCol (appFrame f idx) "fecha_txt") = true
    · rw [if_pos hm] at h ⊢
      cases hc : cook_app (appFrame f idx) with
      | error e => simp [hc] at h
      | ok df₂ =>
        simp only [hc] at h ⊢
        cases hy : yearsOf df₂ with
        | error e => simp [hy] at h
        | ok yrs =>
          simp only [hy] at h ⊢
          exact yearLoop_app_pairing _ _ yrs t yr tot h
    · rw [if_neg hm] at h
      simp at h

theorem foldl_entryStep_years (t : Tipo) :
    ∀ (effs : List AppEff) (r : Tipo → List AppEntry) (e : AppEntry),
      e ∈ (effs.foldl entryStep_app r) t →
      e ∈ r t ∨ ∃ tot, AppEff.entry t e.year tot ∈ effs := by
  intro effs
  induction effs with
  | nil => intro r e h; exact Or.inl h
  | cons eff rest ih =>
    intro r e h
    rw [List.foldl_cons] at h
    rcases ih _ e h with h1 | ⟨tot, h2⟩
    · cases heff : eff with
      | write t₂ yr content =>
        rw [heff] at h1
        exact Or.inl h1
      | entry t₂ yr tot₂ =>
        rw [heff] at h1
        simp only [entryStep_app] at h1
        by_cases ht : t = t₂
        · rw [if_pos ht] at h1
          unfold applyEntry at h1
          rcases List.mem_append.mp h1 with h3 | h3
          · exact Or.inl (List.mem_of_mem_filter h3)
          · simp only [List.mem_singleton] at h3
            subst h3
            refine Or.inr ⟨tot₂, ?_⟩
            rw [ht]
            simp
        · rw [if_neg ht] at h1
          exact Or.inl h1
    · exact Or.inr ⟨tot, List.mem_cons_of_mem _ h2⟩

theorem files_entry_years (t : Tipo) :
    ∀ (fs : List XFile) (r : Tipo → List AppEntry) (e : AppEntry),
      e ∈ (fs.foldl (fun r f => (processFile_app f).1.foldl entryStep_app r) r) t →
      e ∈ r t ∨ ∃ f ∈ fs, ∃ tot, AppEff.entry t e.year tot ∈ (processFile_app f).1 := by
  intro fs
  induction fs with
  | nil => intro r e h; exact Or.inl h
  | cons f rest ih =>
    intro r e h
    rw [List.foldl_cons] at h
    rcases ih _ e h with h1 | ⟨g, hg, tot, h2⟩
    · rcases foldl_entryStep_years t _ r e h1 with h3 | ⟨tot, h4⟩
      · exact Or.inl h3
      · exact Or.inr ⟨f, by simp, tot, h4⟩
    · exact Or.inr ⟨g, List.mem_cons_of_mem _ hg, tot, h2⟩

theorem foldl_applyAppEff_summaries (effs : List AppEff) (fsys : AppFS)
    (res : Tipo → List AppEntry) :
    ((effs.foldl applyAppEff (fsys, res)).1).summaries = fsys.summaries := by
  induction effs generalizing fsys res with
  | nil => rfl
  | cons e rest ih =>
    rw [List.foldl_cons]
    cases e with
    | write t yr content => exact ih _ _
    | entry t yr tot => exact ih _ _

theorem runFiles_app_fs_summaries (fs : List XFile) (fsys : AppFS)
    (res : Tipo → List AppEntry) (p : Nat) :
    (runFiles_app fs (fsys, res, p)).1.summaries = fsys.summaries := by
  induction fs generalizing fsys res p with
  | nil => rfl
  | cons f rest ih =>
    rcases hpf : processFile_app f with ⟨effs, out⟩
    rw [runFiles_app]
    simp only [hpf]
    rw [ih]
    rw [foldl_applyAppEff_summaries]

theorem foldl_applyCuodeEff_summary (effs : List CuodeEff) (fsys : CuodeFS)
    (yw : List String) :
    ((effs.foldl applyCuodeEff (fsys, yw)).1).summary = fsys.summary := by
  induction effs generalizing fsys yw with
  | nil => rfl
  | cons e rest ih =>
    rw [List.foldl_cons]
    cases e with
    | write yr content => exact ih _ _

theorem runFiles_cuode_fs_summary (fs : List XFile) (fsys : CuodeFS)
    (yw : List String) (p : Nat) :
    (runFiles_cuode fs (fsys, yw, p)).1.summary = fsys.summary := by
  induction fs generalizing fsys yw p with
  | nil => rfl
  | cons f rest ih =>
    rcases hpf : processFile_cuode f with ⟨effs, out⟩
    rw [runFiles_cuode]
    simp only [hpf]
    rw [ih]
    rw [foldl_applyCuodeEff_summary]

/-- C10: each run rebuilds the summary from an index that starts empty, so
a freshly written summary file only carries entries for years written
during that run, and a flow for which the run wrote zero year files keeps
its pre-existing summary file untouched — in both the `app.py` engine
(per flow) and the `appcuode.py` engine. -/
theorem run_frame_effect (files : List XFile) (fsA : AppFS) (fsC : CuodeFS) :
    (∀ t, runWriteYears_app files t = [] →
      (run_process_app files fsA).2.summaries t = fsA.summaries t) ∧
    (∀ t, runResumen_app files t ≠ [] →
      ∃ js, (run_process_app files fsA).2.summaries t = some js ∧
        ∀ e ∈ js, jsonYear e ∈ runWriteYears_app files t) ∧
    (runYearsW_cuode files = [] →
      (run_process_cuode files fsC).2.summary = fsC.summary) ∧
    (runYearsW_cuode files ≠ [] →
      ∃ js, (run_process_cuode files fsC).2.summary = some js ∧
        ∀ e ∈ js, jsonYear e ∈ runYearsW_cuode files) := by
  have hresfold : (runFiles_app (sortFilesByName files) (fsA, fun _ => [], 0)).2.1 =
      runResumen_app files := by
    rw [runFiles_app_resumen]
    rfl
  have hywfold : (runFiles_cuode (sortFilesByName files) (fsC, [], 0)).2.1 =
      runYearsW_cuode files := by
    rw [runFiles_cuode_yearsW]
    rfl
  refine ⟨?_, ?_, ?_, ?_⟩
  · intro t hw
    by_cases hfe : files.isEmpty
    · unfold run_process_app
      rw [if_pos hfe]
    · unfold run_process_app
      rw [if_neg hfe]
      simp only []
      rw [writeSummaries_app_summaries, hresfold]
      have hres : runResumen_app files t = [] := by
        by_contra hne
        obtain ⟨e, he⟩ := List.exists_mem_of_ne_nil _ hne
        rcases files_entry_years t _ _ e he with h1 | ⟨f, hf, tot, hent⟩
        · simp at h1
        · obtain ⟨content, hwr⟩ := processFile_app_pairing f t e.year tot hent
          have hmem : e.year ∈ runWriteYears_app files t :=
            files_writeYears_intro _ _ f hf hwr
          rw [hw] at hmem
          simp at hmem
      rw [if_pos hres]
      rw [runFiles_app_fs_summaries]
  · intro t hne
    have hfe : ¬files.isEmpty = true := by
      intro hemp
      rw [List.isEmpty_iff] at hemp
      subst hemp
      exact hne rfl
    unfold run_process_app
    rw [if_neg hfe]
    simp only []
    rw [writeSummaries_app_summaries, hresfold, if_neg hne]
    refine ⟨_, rfl, ?_⟩
    rintro e he
    rcases List.mem_map.mp he with ⟨x, hx, rfl⟩
    rw [jsonYear_toJson_app]
    have hx2 : x ∈ runResumen_app files t :=
      (List.perm_insertionSort _ _).mem_iff.mp hx
    rcases files_entry_years t _ _ x hx2 with h1 | ⟨f, hf, tot, hent⟩
    · simp at h1
    · obtain ⟨content, hwr⟩ := processFile_app_pairing f t x.year tot hent
      exact files_writeYears_intro _ _ f hf hwr
  · intro hw
    by_cases hfe : files.isEmpty
    · unfold run_process_cuode
      rw [if_pos hfe]
    · unfold run_process_cuode
      rw [if_neg hfe]
      simp only [hywfold]
      rw [if_neg (by simp [hw])]
      exact congrArg CuodeFS.summary
        (congrArg _ rfl) |>.trans (runFiles_cuode_fs_summary _ _ _ _)
  · intro hne
    have hfe : ¬files.isEmpty = true := by
      intro hemp
      rw [List.isEmpty_iff] at hemp
      subst hemp
      exact hne rfl
    unfold run_process_cuode
    rw [if_neg hfe]
    simp only [hywfold]
    rw [if_pos hne]
    refine ⟨_, rfl, ?_⟩
    rintro e he
    rcases List.mem_map.mp he with ⟨yr, hyr, rfl⟩
    rw [jsonYear_toJson_cuode]
    exact (List.perm_insertionSort _ _).mem_iff.mp hyr

theorem run_frame_effect_witness :
    (run_process_app [appOkFile] emptyAppFS).2.summaries Tipo.exports = none ∧
    (run_process_cuode ([] : List XFile) emptyCuodeFS).2.summary = none ∧
    ((run_process_app [appOkFile] emptyAppFS).2.summaries Tipo.imports).isSome = true ∧
    ((run_process_cuode [c3File] emptyCuodeFS).2.summary).isSome = true := by
  refine ⟨?_, ?_, ?_, ?_⟩
  · exact ((run_frame_effect [appOkFile] emptyAppFS emptyCuodeFS).1 Tipo.exports
      (by decide)).trans rfl
  · exact ((run_frame_effect [] emptyAppFS emptyCuodeFS).2.2.1 (by decide)).trans rfl
  · obtain ⟨js, hjs, -⟩ := (run_frame_effect [appOkFile] emptyAppFS emptyCuodeFS).2.1
      Tipo.imports (by decide)
    rw [hjs]
    rfl
  · obtain ⟨js, hjs, -⟩ := (run_frame_effect [c3File] emptyAppFS emptyCuodeFS).2.2.2
      (by decide)
    rw [hjs]
    rfl

/-! ## C9 infrastructure: rectangular frames and the records/column sum -/

/-- Every column of the frame has length `n`. -/
def rectN (df : Frame) (n : Nat) : Prop := ∀ c ∈ df, c.2.length = n

/-- The frame is rectangular (pandas dataframes always are). -/
def rectF (df : Frame) : Prop := ∃ n, rectN df n

theorem getCol_ok_lookup {df : Frame} {nm : String} {v : List Cell}
    (h : getCol df nm = .ok v) : df.lookup nm = some v := by
  unfold getCol at h
  cases hl : df.lookup nm with
  | none => rw [hl] at h; exact Except.noConfusion h
  | some w =>
    rw [hl] at h
    injection h with h
    rw [h]

theorem lookup_mem {df : Frame} {key : String} {vals : List Cell}
    (h : df.lookup key = some vals) : (key, vals) ∈ df := by
  induction df with
  | nil => simp at h
  | cons c cs ih =>
    rw [show c = (c.1, c.2) from rfl, List.lookup_cons] at h
    cases hb : (key == c.1) with
    | true =>
      rw [hb] at h
      injection h with h
      have hk : key = c.1 := by simpa using hb
      have : (key, vals) = c := by
        rw [hk, ← h]
      rw [this]
      exact List.mem_cons_self _ _
    | false =>
      rw [hb] at h
      exact List.mem_cons_of_mem _ (ih h)

theorem frameNRows_eq_of_rectN {df : Frame} {n : Nat} (h : rectN df n)
    (hne : df ≠ []) : frameNRows df = n := by
  cases df with
  | nil => exact absurd rfl hne
  | cons c cs => exact h c (by simp)

theorem rectN_lookup_length {df : Frame} {n : Nat} {key : String} {vals : List Cell}
    (h : rectN df n) (hl : df.lookup key = some vals) : vals.length = n :=
  h (key, vals) (lookup_mem hl)

theorem rectN_setCol {df : Frame} {n : Nat} {nm : String} {v : List Cell}
    (h : rectN df n) (hv : v.length = n) : rectN (setCol df nm v) n := by
  intro c hc
  unfold setCol at hc
  by_cases hcol : hasCol df nm
  · rw [if_pos hcol] at hc
    rcases List.mem_map.mp hc with ⟨c₀, hc₀, he⟩
    by_cases hb : c₀.1 = nm
    · rw [if_pos (by simpa using hb)] at he
      rw [← he]
      exact hv
    · rw [if_neg (by simpa using hb)] at he
      rw [← he]
      exact h c₀ hc₀
  · rw [if_neg hcol] at hc
    rcases List.mem_append.mp hc with hc₀ | hc₀
    · exact h c hc₀
    · simp only [List.mem_singleton] at hc₀
      rw [hc₀]
      exact hv

theorem applyMask_length {mask : List Bool} {vals : List Cell}
    (h : mask.length = vals.length) :
    (applyMask mask vals).length = (mask.filter (fun b => b)).length := by
  induction mask generalizing vals with
  | nil => simp [applyMask]
  | cons b ms ih =>
    cases vals with
    | nil => simp at h
    | cons v vs =>
      simp only [List.length_cons, Nat.succ.injEq] at h
      unfold applyMask
      rw [List.zip_cons_cons, List.filterMap_cons]
      have hmask : (List.zip ms vs).filterMap
          (fun p => if p.1 then some p.2 else none) = applyMask ms vs := rfl
      cases b with
      | true => simp [hmask, ih h]
      | false => simp [hmask, ih h]

theorem rectN_maskMap {df : Frame} {n : Nat} (h : rectN df n) {mask : List Bool}
    (hm : mask.length = n) :
    rectN (df.map (fun c => (c.1, applyMask mask c.2)))
      ((mask.filter (fun b => b)).length) := by
  intro c hc
  rcases List.mem_map.mp hc with ⟨c₀, hc₀, he⟩
  rw [← he]
  exact applyMask_length (by rw [hm, h c₀ hc₀])

theorem dropna2_ok_inv {df : Frame} {c1 c2 : String} {df₂ : Frame}
    (h : dropna2 df c1 c2 = .ok df₂) :
    ∃ v1 v2, getCol df c1 = .ok v1 ∧ getCol df c2 = .ok v2 ∧
      df₂ = df.map (fun c => (c.1,
        applyMask (List.zipWith (fun a b => a != Cell.na && b != Cell.na) v1 v2) c.2)) := by
  unfold dropna2 at h
  cases h1 : getCol df c1 with
  | error e => rw [h1] at h; exact Except.noConfusion h
  | ok v1 =>
    rw [h1] at h
    cases h2 : getCol df c2 with
    | error e => rw [h2] at h; exact Except.noConfusion h
    | ok v2 =>
      rw [h2] at h
      injection h with h
      exact ⟨v1, v2, rfl, rfl, h.symm⟩

theorem filterByYear_ok_inv {df : Frame} {yr : String} {sub : Frame}
    (h : filterByYear df yr = .ok sub) :
    ∃ fe, getCol df "fecha" = .ok fe ∧
      sub = df.map (fun c => (c.1,
        applyMask (fe.map (fun c => yr.data.isPrefixOf (cellStr c).data)) c.2)) := by
  unfold filterByYear at h
  cases h1 : getCol df "fecha" with
  | error e => rw [h1] at h; exact Except.noConfusion h
  | ok fe =>
    rw [h1] at h
    injection h with h
    exact ⟨fe, rfl, h.symm⟩

theorem rectF_dropna2 {df : Frame} {c1 c2 : String} {df₂ : Frame}
    (hr : rectF df) (h : dropna2 df c1 c2 = .ok df₂) : rectF df₂ := by
  obtain ⟨n, hn⟩ := hr
  obtain ⟨v1, v2, h1, h2, he⟩ := dropna2_ok_inv h
  have hl1 : v1.length = n := rectN_lookup_length hn (getCol_ok_lookup h1)
  have hl2 : v2.length = n := rectN_lookup_length hn (getCol_ok_lookup h2)
  rw [he]
  exact ⟨_, rectN_maskMap hn (by rw [List.length_zipWith, hl1, hl2]; omega)⟩

theorem rectF_filterByYear {df : Frame} {yr : String} {sub : Frame}
    (hr : rectF df) (h : filterByYear df yr = .ok sub) : rectF sub := by
  obtain ⟨n, hn⟩ := hr
  obtain ⟨fe, h1, he⟩ := filterByYear_ok_inv h
  have hl : fe.length = n := rectN_lookup_length hn (getCol_ok_lookup h1)
  rw [he]
  exact ⟨_, rectN_maskMap hn (by rw [List.length_map, hl])⟩

theorem rectN_coerceNumericCols {df : Frame} {n : Nat} (h : rectN df n)
    (names : List String) : rectN (coerceNumericCols df names) n := by
  induction names generalizing df with
  | nil => exact h
  | cons nm rest ih =>
    unfold coerceNumericCols
    rw [List.foldl_cons]
    rw [show rest.foldl _ _ = coerceNumericCols (match df.lookup nm with
      | some vals => setCol df nm (vals.map coerceNum)
      | none => df) rest from rfl]
    refine ih ?_
    cases hl : df.lookup nm with
    | some vals =>
      refine rectN_setCol h ?_
      rw [List.length_map]
      exact rectN_lookup_length h hl
    | none => exact h

theorem rectF_setCol_replicate {df : Frame} (hr : rectF df) (nm : String) (x : Cell) :
    rectF (setCol df nm (List.replicate (frameNRows df) x)) := by
  obtain ⟨n, hn⟩ := hr
  cases hd : df with
  | nil =>
    refine ⟨0, ?_⟩
    intro c hc
    unfold setCol hasCol colNames at hc
    simp at hc
    rw [hc]
    simp [frameNRows]
  | cons c₀ cs =>
    rw [← hd]
    refine ⟨n, rectN_setCol hn ?_⟩
    rw [List.length_replicate]
    exact frameNRows_eq_of_rectN hn (by rw [hd]; exact List.cons_ne_nil _ _)

theorem rectF_fillMissingCols {df : Frame} (hr : rectF df)
    (cols numeric : List String) : rectF (fillMissingCols df cols numeric) := by
  induction cols generalizing df with
  | nil => exact hr
  | cons c rest ih =>
    unfold fillMissingCols
    rw [List.foldl_cons]
    rw [show rest.foldl _ _ = fillMissingCols (if hasCol df c then df
      else setCol df c (List.replicate (frameNRows df)
        (if numeric.contains c then Cell.n 0 else Cell.s ""))) rest numeric from rfl]
    refine ih ?_
    by_cases hc : hasCol df c
    · rw [if_pos hc]; exact hr
    · rw [if_neg hc]
      exact rectF_setCol_replicate hr c _

theorem rectN_buildFrame (hdr : List Cell) (data : List (List Cell)) :
    rectN (buildFrame hdr data) data.length := by
  intro c hc
  unfold buildFrame at hc
  have hc2 := List.mem_of_mem_filter hc
  rcases List.mem_map.mp hc2 with ⟨i, -, he⟩
  rw [← he]
  exact List.length_map _ _

theorem rectN_applyRename {df : Frame} {n : Nat} (h : rectN df n)
    (assigns : List (String × String)) : rectN (applyRename assigns df) n := by
  intro c hc
  unfold applyRename at hc
  rcases List.mem_map.mp hc with ⟨c₀, hc₀, he⟩
  cases hg : (assigns.filter (fun a => a.1 == c₀.1)).getLast? with
  | some a =>
    rw [hg] at he
    rw [← he]
    exact h c₀ hc₀
  | none =>
    rw [hg] at he
    rw [← he]
    exact h c₀ hc₀

theorem getCols_ok_inv {df : Frame} :
    ∀ {cols : List String} {r : List (String × List Cell)},
      getCols df cols = .ok r →
      r.map Prod.fst = cols ∧ ∀ p ∈ r, df.lookup p.1 = some p.2 := by
  intro cols
  induction cols with
  | nil =>
    intro r h
    unfold getCols at h
    injection h with h
    rw [← h]
    exact ⟨rfl, by simp⟩
  | cons cn rest ih =>
    intro r h
    unfold getCols at h
    cases h1 : getCol df cn with
    | error e => rw [h1] at h; exact Except.noConfusion h
    | ok v =>
      rw [h1] at h
      cases h2 : getCols df rest with
      | error e => rw [h2] at h; exact Except.noConfusion h
      | ok r₀ =>
        rw [h2] at h
        injection h with h
        obtain ⟨hk, hp⟩ := ih h2
        rw [← h]
        refine ⟨by simp [hk], ?_⟩
        rintro p hp2
        rcases List.mem_cons.mp hp2 with rfl | hp3
        · exact getCol_ok_lookup h1
        · exact hp p hp3

theorem selectRecords_ok_inv {df : Frame} {cols : List String}
    {recs : List (List (String × Cell))}
    (h : selectRecords df cols = .ok recs) :
    ∃ colVals, getCols df cols = .ok colVals ∧
      recs = (List.range (frameNRows df)).map (fun i =>
        colVals.map (fun cv => (cv.1, cv.2.getD i .na))) := by
  unfold selectRecords at h
  cases h1 : getCols df cols with
  | error e => rw [h1] at h; exact Except.noConfusion h
  | ok colVals =>
    rw [h1] at h
    injection h with h
    exact ⟨colVals, rfl, h.symm⟩

theorem map_range_getD : ∀ (vals : List Cell),
    (List.range vals.length).map (fun i => vals.getD i Cell.na) = vals := by
  intro vals
  induction vals with
  | nil => rfl
  | cons v vs ih =>
    rw [List.length_cons, List.range_succ_eq_map]
    rw [List.map_cons, List.map_map]
    rw [show ((fun i => (v :: vs).getD i Cell.na) ∘ Nat.succ) =
      (fun i => vs.getD i Cell.na) from rfl]
    rw [ih]
    rfl

theorem row_lookup {colVals : List (String × List Cell)} {key : String}
    {vals : List Cell}
    (hall : ∀ p ∈ colVals, p.1 = key → p.2 = vals)
    (hex : ∃ p ∈ colVals, p.1 = key) (i : Nat) :
    (colVals.map (fun cv => (cv.1, cv.2.getD i Cell.na))).lookup key =
      some (vals.getD i Cell.na) := by
  induction colVals with
  | nil => obtain ⟨p, hp, -⟩ := hex; simp at hp
  | cons cv rest ih =>
    rw [List.map_cons, List.lookup_cons]
    cases hb : (key == cv.1) with
    | true =>
      have hk : cv.1 = key := by
        have := (beq_iff_eq.mp hb)
        rw [this]
      rw [hall cv (by simp) hk]
    | false =>
      refine ih (fun p hp he => hall p (List.mem_cons_of_mem _ hp) he) ?_
      obtain ⟨p, hp, he⟩ := hex
      rcases List.mem_cons.mp hp with rfl | hp2
      · rw [he] at hb
        simp at hb
      · exact ⟨p, hp2, he⟩

theorem selectRecords_sum {df : Frame} {cols : List String} {key : String}
    (hrect : rectF df) (hkey : key ∈ cols)
    {recs : List (List (String × Cell))} (hsel : selectRecords df cols = .ok recs)
    {vals : List Cell} (hval : getCol df key = .ok vals) :
    sumRecsKey recs key = sumCol vals := by
  obtain ⟨n, hn⟩ := hrect
  obtain ⟨colVals, hcv, hrecs⟩ := selectRecords_ok_inv hsel
  obtain ⟨hkeys, hlook⟩ := getCols_ok_inv hcv
  have hvl : df.lookup key = some vals := getCol_ok_lookup hval
  have hall : ∀ p ∈ colVals, p.1 = key → p.2 = vals := by
    intro p hp he
    have := hlook p hp
    rw [he, hvl] at this
    injection this with this
    rw [this]
  have hex : ∃ p ∈ colVals, p.1 = key := by
    rw [← hkeys] at hkey
    rcases List.mem_map.mp hkey with ⟨p, hp, he⟩
    exact ⟨p, hp, he⟩
  have hlen : vals.length = n := rectN_lookup_length hn hvl
  have hnr : frameNRows df = n :=
    frameNRows_eq_of_rectN hn (by
      intro hnil
      rw [hnil] at hvl
      simp at hvl)
  have hmap : recs.map (fun r => (r.lookup key).getD Cell.na) = vals := by
    rw [hrecs, List.map_map]
    have : ((fun r => (r.lookup key).getD Cell.na) ∘
        (fun i => colVals.map (fun cv => (cv.1, cv.2.getD i Cell.na)))) =
        (fun i => vals.getD i Cell.na) := by
      funext i
      show ((colVals.map (fun cv => (cv.1, cv.2.getD i Cell.na))).lookup key).getD
        Cell.na = vals.getD i Cell.na
      rw [row_lookup hall hex i]
      rfl
    rw [this, hnr, ← hlen]
    exact map_range_getD vals
  have hsum : sumCol (recs.map (fun r => (r.lookup key).getD Cell.na)) =
      sumRecsKey recs key := by
    unfold sumCol sumRecsKey
    rw [List.foldr_map]
  rw [← hsum, hmap]

theorem rectF_appFrame (f : XFile) (idx : Nat) : rectF (appFrame f idx) := by
  unfold appFrame
  exact ⟨_, rectN_applyRename (rectN_buildFrame _ _) _⟩

theorem cook_exp_rect {df df₂ : Frame} (h : cook_exp df = .ok df₂) (hr : rectF df) :
    rectF df₂ := by
  obtain ⟨n, hn⟩ := hr
  unfold cook_exp at h
  cases hft : getCol df "fecha_txt" with
  | error e => rw [hft] at h; exact Except.noConfusion h
  | ok ft =>
    simp only [hft] at h
    have hftl : ft.length = n := rectN_lookup_length hn (getCol_ok_lookup hft)
    have hr1 : rectN (setCol df "fecha" (ft.map (fun c =>
        match parse_fecha c with
        | some d => Cell.s d
        | none => Cell.na))) n :=
      rectN_setCol hn (by rw [List.length_map]; exact hftl)
    cases hdrop : dropna2 (setCol df "fecha" (ft.map (fun c =>
        match parse_fecha c with
        | some d => Cell.s d
        | none => Cell.na))) "fecha" "cod" with
    | error e => rw [hdrop] at h; exact Except.noConfusion h
    | ok dfb =>
      simp only [hdrop] at h
      obtain ⟨m, hm⟩ := rectF_dropna2 ⟨n, hr1⟩ hdrop
      have hr3 : rectN (coerceNumericCols dfb ["fob", "cif", "peso"]) m :=
        rectN_coerceNumericCols hm _
      cases hcod : getCol (coerceNumericCols dfb ["fob", "cif", "peso"]) "cod" with
      | error e => rw [hcod] at h; exact Except.noConfusion h
      | ok codv =>
        simp only [hcod] at h
        simp only [getCol_setCol_self] at h
        have hcl : codv.length = m := rectN_lookup_length hr3 (getCol_ok_lookup hcod)
        have hr4 : rectN (setCol (coerceNumericCols dfb ["fob", "cif", "peso"]) "cod"
            (codv.map (fun c => Cell.s (normalize_code_sub (cellStr c))))) m :=
          rectN_setCol hr3 (by rw [List.length_map]; exact hcl)
        have hr5 : rectN (setCol (setCol (coerceNumericCols dfb ["fob", "cif", "peso"])
            "cod" (codv.map (fun c => Cell.s (normalize_code_sub (cellStr c))))) "sector"
            ((codv.map (fun c => Cell.s (normalize_code_sub (cellStr c)))).map
              (fun c => Cell.s (get_sector (cellStr c))))) m :=
          rectN_setCol hr4 (by rw [List.length_map, List.length_map]; exact hcl)
        cases hdesc : getCol (setCol (setCol (coerceNumericCols dfb ["fob", "cif", "peso"])
            "cod" (codv.map (fun c => Cell.s (normalize_code_sub (cellStr c))))) "sector"
            ((codv.map (fun c => Cell.s (normalize_code_sub (cellStr c)))).map
              (fun c => Cell.s (get_sector (cellStr c))))) "desc" with
        | ok dv =>
          simp only [hdesc] at h
          injection h with h
          rw [← h]
          refine ⟨m, rectN_setCol hr5 ?_⟩
          rw [List.length_map]
          exact rectN_lookup_length hr5 (getCol_ok_lookup hdesc)
        | error e =>
          simp only [hdesc] at h
          injection h with h
          rw [← h]
          exact rectF_setCol_replicate ⟨m, hr5⟩ _ _

theorem cook_app_rect {df df₂ : Frame} (h : cook_app df = .ok df₂) (hr : rectF df) :
    rectF df₂ := by
  obtain ⟨n, hn⟩ := hr
  unfold cook_app at h
  cases hft : getCol df "fecha_txt" with
  | error e => rw [hft] at h; exact Except.noConfusion h
  | ok ft =>
    simp only [hft] at h
    have hftl : ft.length = n := rectN_lookup_length hn (getCol_ok_lookup hft)
    have hr1 : rectN (setCol df "fecha" (ft.map (fun c =>
        match parse_fecha c with
        | some d => Cell.s d
        | none => Cell.na))) n :=
      rectN_setCol hn (by rw [List.length_map]; exact hftl)
    cases hdrop : dropna2 (setCol df "fecha" (ft.map (fun c =>
        match parse_fecha c with
        | some d => Cell.s d
        | none => Cell.na))) "fecha" "cod" with
    | error e => rw [hdrop] at h; exact Except.noConfusion h
    | ok dfb =>
      simp only [hdrop] at h
      obtain ⟨m, hm⟩ := rectF_dropna2 ⟨n, hr1⟩ hdrop
      have hr3 : rectN (coerceNumericCols dfb ["fob", "cif", "peso"]) m :=
        rectN_coerceNumericCols hm _
      cases hcod : getCol (coerceNumericCols dfb ["fob", "cif", "peso"]) "cod" with
      | error e => rw [hcod] at h; exact Except.noConfusion h
      | ok codv =>
        simp only [hcod] at h
        simp only [getCol_setCol_self] at h
        have hcl : codv.length = m := rectN_lookup_length hr3 (getCol_ok_lookup hcod)
        have hr4 : rectN (setCol (coerceNumericCols dfb ["fob", "cif", "peso"]) "cod"
            (codv.map (fun c => Cell.s (normalize_code_sub (cellStr c))))) m :=
          rectN_setCol hr3 (by rw [List.length_map]; exact hcl)
        have hr5 : rectN (setCol (setCol (coerceNumericCols dfb ["fob", "cif", "peso"])
            "cod" (codv.map (fun c => Cell.s (normalize_code_sub (cellStr c))))) "sector"
            ((codv.map (fun c => Cell.s (normalize_code_sub (cellStr c)))).map
              (fun c => Cell.s (get_sector (cellStr c))))) m :=
          rectN_setCol hr4 (by rw [List.length_map, List.length_map]; exact hcl)
        cases hdesc : getCol (setCol (setCol (coerceNumericCols dfb ["fob", "cif", "peso"])
            "cod" (codv.map (fun c => Cell.s (normalize_code_sub (cellStr c))))) "sector"
            ((codv.map (fun c => Cell.s (normalize_code_sub (cellStr c)))).map
              (fun c => Cell.s (get_sector (cellStr c))))) "desc" with
        | ok dv =>
          simp only [hdesc] at h
          injection h with h
          rw [← h]
          refine ⟨m, rectN_setCol hr5 ?_⟩
          rw [List.length_map]
          exact rectN_lookup_length hr5 (getCol_ok_lookup hdesc)
        | error e =>
          rw [hdesc] at h
          exact Except.noConfusion h

/-! ## C9 infrastructure: the replace-not-duplicate invariant

Two facts drive the claim.  First, `applyEntry` (the
`resumen = [x for x in resumen if x["year"] != yr]` + `append` idiom of
both subheading flows) keeps the in-memory index free of duplicate years.
Second, at every point of a run, each index entry's `total` is the rounded
sum of the flow's measure over the records currently persisted in that
year's file — the entry is always installed right after its year file is
(re)written, so a second run can never double-count the first run's
persisted data. -/

/-- The years of the in-memory summary index are pairwise distinct. -/
def entryYearsNodup (res : List AppEntry) : Prop :=
  List.Pairwise (fun a b : AppEntry => a.year ≠ b.year) res

theorem applyEntry_nodup {res : List AppEntry} {yr : String} {tot : ℚ}
    (h : entryYearsNodup res) : entryYearsNodup (applyEntry res yr tot) := by
  unfold entryYearsNodup applyEntry
  rw [List.pairwise_append]
  refine ⟨h.filter _, by simp, ?_⟩
  intro a ha b hb
  rw [List.mem_singleton] at hb
  subst hb
  have ha2 := List.of_mem_filter ha
  simp only [bne_iff_ne] at ha2
  exact ha2

theorem entryStep_exp_nodup {res : List AppEntry} (h : entryYearsNodup res)
    (e : ExpEff) : entryYearsNodup (entryStep_exp res e) := by
  cases e with
  | write yr c => exact h
  | entry yr tot => exact applyEntry_nodup h

theorem foldl_entryStep_exp_nodup (effs : List ExpEff) :
    ∀ {res : List AppEntry}, entryYearsNodup res →
      entryYearsNodup (effs.foldl entryStep_exp res) := by
  induction effs with
  | nil => intro res h; exact h
  | cons e rest ih =>
    intro res h
    rw [List.foldl_cons]
    exact ih (entryStep_exp_nodup h e)

theorem runResumen_exp_nodup (files : List XFile) :
    entryYearsNodup (runResumen_exp files) := by
  unfold runResumen_exp
  generalize sortFilesByName (files.filter (fun f => is_export_file f.name)) = fs
  have haux : ∀ (l : List XFile) (res : List AppEntry), entryYearsNodup res →
      entryYearsNodup (l.foldl
        (fun r f => (processFile_exp f).1.foldl entryStep_exp r) res) := by
    intro l
    induction l with
    | nil => intro res h; exact h
    | cons f rest ih =>
      intro res h
      rw [List.foldl_cons]
      exact ih _ (foldl_entryStep_exp_nodup _ h)
  exact haux fs [] List.Pairwise.nil

theorem entryStep_app_nodup {res : Tipo → List AppEntry}
    (h : ∀ t, entryYearsNodup (res t)) (e : AppEff) (t : Tipo) :
    entryYearsNodup (entryStep_app res e t) := by
  cases e with
  | write t₂ yr c => exact h t
  | entry t₂ yr tot =>
    show entryYearsNodup (if t = t₂ then applyEntry (res t) yr tot else res t)
    by_cases ht : t = t₂
    · rw [if_pos ht]; exact applyEntry_nodup (h t)
    · rw [if_neg ht]; exact h t

theorem foldl_entryStep_app_nodup (effs : List AppEff) :
    ∀ {res : Tipo → List AppEntry}, (∀ t, entryYearsNodup (res t)) →
      ∀ t, entryYearsNodup (effs.foldl entryStep_app res t) := by
  induction effs with
  | nil => intro res h; exact h
  | cons e rest ih =>
    intro res h
    rw [List.foldl_cons]
    exact ih (entryStep_app_nodup h e)

theorem runResumen_app_nodup (files : List XFile) (t : Tipo) :
    entryYearsNodup (runResumen_app files t) := by
  unfold runResumen_app
  generalize sortFilesByName files = fs
  have haux : ∀ (l : List XFile) (res : Tipo → List AppEntry),
      (∀ t, entryYearsNodup (res t)) →
      ∀ t, entryYearsNodup (l.foldl
        (fun r f => (processFile_app f).1.foldl entryStep_app r) res t) := by
    intro l
    induction l with
    | nil => intro res h; exact h
    | cons f rest ih =>
      intro res h
      rw [List.foldl_cons]
      exact ih _ (foldl_entryStep_app_nodup _ h)
  exact haux fs (fun _ => []) (fun _ => List.Pairwise.nil) t

/-- A nonempty index whose years are pairwise distinct and all equal to
`yr` is a single entry for `yr`. -/
theorem entries_singleton {res : List AppEntry} {yr : String}
    (hne : res ≠ []) (hnd : entryYearsNodup res)
    (hall : ∀ e ∈ res, e.year = yr) : ∃ e, res = [e] ∧ e.year = yr := by
  cases res with
  | nil => exact absurd rfl hne
  | cons e rest =>
    cases rest with
    | nil => exact ⟨e, rfl, hall e (by simp)⟩
    | cons e₂ rest₂ =>
      exfalso
      have h12 : e.year ≠ e₂.year :=
        (List.pairwise_cons.mp hnd).1 e₂ (by simp)
      rw [hall e (by simp), hall e₂ (by simp)] at h12
      exact h12 rfl

theorem sortEntriesDesc_singleton (e : AppEntry) : sortEntriesDesc [e] = [e] := rfl

/-- The no-double-counting invariant of `appexport.py`: every entry of the
in-memory index points at a year file that currently holds exactly the
records whose FOB sum (rounded to 2 decimals) is the entry's `total`. -/
def expInv (fsys : ExpFS) (res : List AppEntry) : Prop :=
  ∀ e ∈ res, ∃ recs, fsys.yearFiles e.year = some recs ∧
    e.total = round2 (sumRecsKey recs "fob")

/-- The analogous invariant of `app.py`, per flow, with the flow's primary
measure (CIF for imports, FOB for exports). -/
def appInv (fsys : AppFS) (res : Tipo → List AppEntry) : Prop :=
  ∀ t, ∀ e ∈ res t, ∃ recs, fsys.yearFiles t e.year = some recs ∧
    e.total = round2 (sumRecsKey recs
      (if t = Tipo.imports then "cif" else "fob"))

theorem selectRecords_hasCol {df : Frame} {cols : List String}
    {recs : List (List (String × Cell))}
    (h : selectRecords df cols = .ok recs) {c : String} (hc : c ∈ cols) :
    hasCol df c = true := by
  obtain ⟨colVals, hcv, -⟩ := selectRecords_ok_inv h
  obtain ⟨hkeys, hlook⟩ := getCols_ok_inv hcv
  rw [← hkeys] at hc
  rcases List.mem_map.mp hc with ⟨p, hp, he⟩
  subst he
  exact hasCol_of_lookup_some (hlook p hp)

theorem expInv_yearLoop {df : Frame} (hr : rectF df)
    (hfe : hasCol df "fecha" = true) :
    ∀ (yrs : List String) (fsys : ExpFS) (res : List AppEntry),
      expInv fsys res →
      expInv ((yearLoop_exp df yrs).1.foldl applyExpEff (fsys, res)).1
        ((yearLoop_exp df yrs).1.foldl applyExpEff (fsys, res)).2 := by
  intro yrs
  induction yrs with
  | nil => intro fsys res hinv; exact hinv
  | cons yr rest ih =>
    intro fsys res hinv
    obtain ⟨sub, hsub, -⟩ := filterByYear_ok yr hfe
    have hrsub : rectF (fillMissingCols sub appCols ["fob", "cif", "peso"]) :=
      rectF_fillMissingCols (rectF_filterByYear hr hsub) _ _
    obtain ⟨recs, hsel⟩ :=
      @selectRecords_ok (fillMissingCols sub appCols ["fob", "cif", "peso"])
        appCols (fun c hc => fill_hasCol_mem hc)
    obtain ⟨totCol, hfob, -⟩ :=
      getCol_ok_of_hasCol (@fill_hasCol_mem appCols ["fob", "cif", "peso"] sub "fob"
        (show "fob" ∈ appCols by simp [appCols]))
    rw [yearLoop_exp]
    simp only [hsub, hsel, hfob]
    rcases hyl : yearLoop_exp df rest with ⟨effs, out⟩
    simp only [hyl]
    rw [List.foldl_cons, List.foldl_cons]
    have hstep : expInv
        ({ fsys with yearFiles := fun y₂ =>
            if y₂ = yr then some recs else fsys.yearFiles y₂ } : ExpFS)
        (applyEntry res yr (sumCol totCol)) := by
      intro e he
      unfold applyEntry at he
      rcases List.mem_append.mp he with hf | hl
      · have hne : e.year ≠ yr := by
          have := List.of_mem_filter hf
          simpa using this
        obtain ⟨recs₀, hy, ht⟩ := hinv e (List.mem_of_mem_filter hf)
        refine ⟨recs₀, ?_, ht⟩
        show (if e.year = yr then some recs else fsys.yearFiles e.year) = some recs₀
        rw [if_neg hne]
        exact hy
      · rw [List.mem_singleton] at hl
        subst hl
        refine ⟨recs, ?_, ?_⟩
        · show (if yr = yr then some recs else fsys.yearFiles yr) = some recs
          rw [if_pos rfl]
        · show round2 (sumCol totCol) = round2 (sumRecsKey recs "fob")
          rw [selectRecords_sum hrsub (show "fob" ∈ appCols by simp [appCols])
            hsel hfob]
    have := ih ({ fsys with yearFiles := fun y₂ =>
        if y₂ = yr then some recs else fsys.yearFiles y₂ } : ExpFS)
      (applyEntry res yr (sumCol totCol)) hstep
    rw [hyl] at this
    exact this

theorem expInv_processFile (f : XFile) (fsys : ExpFS) (res : List AppEntry)
    (hinv : expInv fsys res) :
    expInv ((processFile_exp f).1.foldl applyExpEff (fsys, res)).1
      ((processFile_exp f).1.foldl applyExpEff (fsys, res)).2 := by
  unfold processFile_exp
  cases hh : find_header_row f.rows 40 with
  | none => simp only [hh]; exact hinv
  | some idx =>
    simp only [hh]
    by_cases hc :
        (hasCol (appFrame f idx) "cod" && hasCol (appFrame f idx) "fecha_txt") = true
    · rw [if_pos hc]
      cases hck : cook_exp (appFrame f idx) with
      | error e => simp only [hck]; exact hinv
      | ok df₂ =>
        simp only [hck]
        cases hys : yearsOf df₂ with
        | error e => simp only [hys]; exact hinv
        | ok yrs =>
          simp only [hys]
          have hrect : rectF df₂ := cook_exp_rect hck (rectF_appFrame f idx)
          have hfe : hasCol df₂ "fecha" = true := by
            unfold yearsOf at hys
            cases hg : getCol df₂ "fecha" with
            | error e => rw [hg] at hys; exact Except.noConfusion hys
            | ok fe => exact hasCol_of_lookup_some (getCol_ok_lookup hg)
          exact expInv_yearLoop hrect hfe yrs fsys res hinv
    · rw [if_neg hc]; exact hinv

theorem expInv_runFiles :
    ∀ (fs : List XFile) (fsys : ExpFS) (res : List AppEntry) (p : Nat),
      expInv fsys res →
      expInv (runFiles_exp fs (fsys, res, p)).1
        (runFiles_exp fs (fsys, res, p)).2.1 := by
  intro fs
  induction fs with
  | nil => intro fsys res p h; exact h
  | cons f rest ih =>
    intro fsys res p h
    rcases hpf : processFile_exp f with ⟨effs, out⟩
    rw [runFiles_exp]
    simp only [hpf]
    have hst := expInv_processFile f fsys res h
    rw [hpf] at hst
    exact ih _ _ _ hst

theorem appInv_yearLoop {df : Frame} (hr : rectF df) (t : Tipo) :
    ∀ (yrs : List String) (fsys : AppFS) (res : Tipo → List AppEntry),
      appInv fsys res →
      appInv ((yearLoop_app t df yrs).1.foldl applyAppEff (fsys, res)).1
        ((yearLoop_app t df yrs).1.foldl applyAppEff (fsys, res)).2 := by
  intro yrs
  induction yrs with
  | nil => intro fsys res hinv; exact hinv
  | cons yr rest ih =>
    intro fsys res hinv
    rw [yearLoop_app]
    cases hsub : filterByYear df yr with
    | error e => simp only [hsub]; exact hinv
    | ok sub =>
      simp only [hsub]
      cases hsel : selectRecords sub appCols with
      | error e2 => simp only [hsel]; exact hinv
      | ok recs =>
        simp only [hsel]
        have hkey : (if t = Tipo.imports then "cif" else "fob") ∈ appCols := by
          cases t <;> simp [appCols]
        cases hfk : getCol sub (if t = Tipo.imports then "cif" else "fob") with
        | error e3 =>
          exfalso
          obtain ⟨v, hv, -⟩ := getCol_ok_of_hasCol (selectRecords_hasCol hsel hkey)
          rw [hv] at hfk
          exact Except.noConfusion hfk
        | ok totCol =>
          simp only [hfk]
          rcases hyl : yearLoop_app t df rest with ⟨effs, out⟩
          simp only [hyl]
          rw [List.foldl_cons, List.foldl_cons]
          have hrsub : rectF sub := rectF_filterByYear hr hsub
          have hstep : appInv
              ({ fsys with yearFiles := fun t₂ y₂ =>
                  if t₂ = t ∧ y₂ = yr then some recs
                  else fsys.yearFiles t₂ y₂ } : AppFS)
              (fun t₂ => if t₂ = t then applyEntry (res t₂) yr (sumCol totCol)
                else res t₂) := by
            intro t₂ e he
            change e ∈ (if t₂ = t then applyEntry (res t₂) yr (sumCol totCol)
              else res t₂) at he
            by_cases ht2 : t₂ = t
            · subst ht2
              rw [if_pos rfl] at he
              unfold applyEntry at he
              rcases List.mem_append.mp he with hf | hl
              · have hne : e.year ≠ yr := by
                  have := List.of_mem_filter hf
                  simpa using this
                obtain ⟨recs₀, hy, ht'⟩ := hinv t₂ e (List.mem_of_mem_filter hf)
                refine ⟨recs₀, ?_, ht'⟩
                show (if t₂ = t₂ ∧ e.year = yr then some recs
                  else fsys.yearFiles t₂ e.year) = some recs₀
                rw [if_neg (fun hcon => hne hcon.2)]
                exact hy
              · rw [List.mem_singleton] at hl
                subst hl
                refine ⟨recs, ?_, ?_⟩
                · show (if t₂ = t₂ ∧ yr = yr then some recs
                    else fsys.yearFiles t₂ yr) = some recs
                  rw [if_pos ⟨rfl, rfl⟩]
                · show round2 (sumCol totCol) = round2 (sumRecsKey recs
                    (if t₂ = Tipo.imports then "cif" else "fob"))
                  rw [selectRecords_sum hrsub hkey hsel hfk]
            · rw [if_neg ht2] at he
              obtain ⟨recs₀, hy, ht'⟩ := hinv t₂ e he
              refine ⟨recs₀, ?_, ht'⟩
              show (if t₂ = t ∧ e.year = yr then some recs
                else fsys.yearFiles t₂ e.year) = some recs₀
              rw [if_neg (fun hcon => ht2 hcon.1)]
              exact hy
          have hrest := ih _ _ hstep
          rw [hyl] at hrest
          exact hrest

theorem appInv_processFile (f : XFile) (fsys : AppFS) (res : Tipo → List AppEntry)
    (hinv : appInv fsys res) :
    appInv ((processFile_app f).1.foldl applyAppEff (fsys, res)).1
      ((processFile_app f).1.foldl applyAppEff (fsys, res)).2 := by
  unfold processFile_app
  cases hh : find_header_row f.rows 40 with
  | none => simp only [hh]; exact hinv
  | some idx =>
    simp only [hh]
    by_cases hc :
        (hasCol (appFrame f idx) "cod" && hasCol (appFrame f idx) "fecha_txt") = true
    · rw [if_pos hc]
      cases hck : cook_app (appFrame f idx) with
      | error e => simp only [hck]; exact hinv
      | ok df₂ =>
        simp only [hck]
        cases hys : yearsOf df₂ with
        | error e => simp only [hys]; exact hinv
        | ok yrs =>
          simp only [hys]
          have hrect : rectF df₂ := cook_app_rect hck (rectF_appFrame f idx)
          exact appInv_yearLoop hrect (tipoOf f.name) yrs fsys res hinv
    · rw [if_neg hc]; exact hinv

theorem appInv_runFiles :
    ∀ (fs : List XFile) (fsys : AppFS) (res : Tipo → List AppEntry) (p : Nat),
      appInv fsys res →
      appInv (runFiles_app fs (fsys, res, p)).1
        (runFiles_app fs (fsys, res, p)).2.1 := by
  intro fs
  induction fs with
  | nil => intro fsys res p h; exact h
  | cons f rest ih =>
    intro fsys res p h
    rcases hpf : processFile_app f with ⟨effs, out⟩
    rw [runFiles_app]
    simp only [hpf]
    have hst := appInv_processFile f fsys res h
    rw [hpf] at hst
    exact ih _ _ _ hst

theorem writeSummaries_app_yearFiles (fsys : AppFS) (res : Tipo → List AppEntry) :
    (writeSummaries_app fsys res).yearFiles = fsys.yearFiles := by
  unfold writeSummaries_app
  by_cases hi : res Tipo.imports = [] <;> by_cases he : res Tipo.exports = [] <;>
    simp [hi, he]

/-- C9: running either subheading pipeline twice over the same input whose
summary index is single-year (every index entry of a run carries the one
year `yr`, and there is at least one) leaves a summary holding exactly one
entry; its year is `yr` and its `total` is the rounded primary-measure sum
of exactly the records persisted in that year's file by the second run —
entries are replaced, never duplicated, and nothing is double-counted
across runs. -/
theorem summary_replace_not_duplicate
    (files : List XFile) (fsA : AppFS) (fsE : ExpFS) (t : Tipo) (yr : String)
    (hA1 : runResumen_app files t ≠ [])
    (hA2 : ∀ e ∈ runResumen_app files t, e.year = yr)
    (hE1 : runResumen_exp files ≠ [])
    (hE2 : ∀ e ∈ runResumen_exp files, e.year = yr) :
    (∃ e recs,
      (run_process_app files (run_process_app files fsA).2).2.summaries t =
          some [AppEntry.toJson e] ∧
      e.year = yr ∧
      (run_process_app files (run_process_app files fsA).2).2.yearFiles t yr =
          some recs ∧
      e.total = round2 (sumRecsKey recs
        (if t = Tipo.imports then "cif" else "fob"))) ∧
    (∃ e recs,
      (run_process_exp files (run_process_exp files fsE).2).2.summary =
          some [AppEntry.toJson e] ∧
      e.year = yr ∧
      (run_process_exp files (run_process_exp files fsE).2).2.yearFiles yr =
          some recs ∧
      e.total = round2 (sumRecsKey recs "fob")) := by
  constructor
  · generalize (run_process_app files fsA).2 = fs1
    have hfe : ¬files.isEmpty = true := by
      intro hemp
      rw [List.isEmpty_iff] at hemp
      subst hemp
      exact hA1 rfl
    have hres : (runFiles_app (sortFilesByName files) (fs1, fun _ => [], 0)).2.1 =
        runResumen_app files := by
      rw [runFiles_app_resumen]
      rfl
    have hrun : (run_process_app files fs1).2 =
        writeSummaries_app
          (runFiles_app (sortFilesByName files) (fs1, fun _ => [], 0)).1
          (runFiles_app (sortFilesByName files) (fs1, fun _ => [], 0)).2.1 := by
      unfold run_process_app
      rw [if_neg hfe]
    obtain ⟨e, heq, hey⟩ := entries_singleton hA1 (runResumen_app_nodup files t) hA2
    have hinv := appInv_runFiles (sortFilesByName files) fs1 (fun _ => []) 0
      (fun t' e' he' => absurd he' (List.not_mem_nil e'))
    have hemem : e ∈ (runFiles_app (sortFilesByName files)
        (fs1, fun _ => [], 0)).2.1 t := by
      rw [hres, heq]
      exact List.mem_singleton_self e
    obtain ⟨recs, hyf, htot⟩ := hinv t e hemem
    refine ⟨e, recs, ?_, hey, ?_, htot⟩
    · rw [hrun, writeSummaries_app_summaries, hres, heq]
      rw [if_neg (List.cons_ne_nil e [])]
      rfl
    · rw [hrun, writeSummaries_app_yearFiles]
      rw [hey] at hyf
      exact hyf
  · generalize (run_process_exp files fsE).2 = fs1
    have hfe : ¬(files.filter (fun f => is_export_file f.name)).isEmpty = true := by
      intro hemp
      rw [List.isEmpty_iff] at hemp
      apply hE1
      unfold runResumen_exp
      rw [hemp]
      rfl
    have hres : (runFiles_exp
        (sortFilesByName (files.filter (fun f => is_export_file f.name)))
        (fs1, [], 0)).2.1 = runResumen_exp files := by
      rw [runFiles_exp_resumen]
      rfl
    have hne2 : (runFiles_exp
        (sortFilesByName (files.filter (fun f => is_export_file f.name)))
        (fs1, [], 0)).2.1 ≠ [] := by
      rw [hres]
      exact hE1
    have hrun : (run_process_exp files fs1).2 =
        { (runFiles_exp
            (sortFilesByName (files.filter (fun f => is_export_file f.name)))
            (fs1, [], 0)).1 with
          summary := some ((sortEntriesDesc (runFiles_exp
            (sortFilesByName (files.filter (fun f => is_export_file f.name)))
            (fs1, [], 0)).2.1).map AppEntry.toJson) } := by
      unfold run_process_exp
      simp only []
      rw [if_neg hfe]
      simp only []
      rw [if_pos hne2]
    obtain ⟨e, heq, hey⟩ := entries_singleton hE1 (runResumen_exp_nodup files) hE2
    have hinv := expInv_runFiles
      (sortFilesByName (files.filter (fun f => is_export_file f.name))) fs1 [] 0
      (fun e' he' => absurd he' (List.not_mem_nil e'))
    have hemem : e ∈ (runFiles_exp
        (sortFilesByName (files.filter (fun f => is_export_file f.name)))
        (fs1, [], 0)).2.1 := by
      rw [hres, heq]
      exact List.mem_singleton_self e
    obtain ⟨recs, hyf, htot⟩ := hinv e hemem
    refine ⟨e, recs, ?_, hey, ?_, htot⟩
    · rw [hrun]
      show some ((sortEntriesDesc (runFiles_exp
        (sortFilesByName (files.filter (fun f => is_export_file f.name)))
        (fs1, [], 0)).2.1).map AppEntry.toJson) = some [AppEntry.toJson e]
      rw [hres, heq]
      rfl
    · rw [hrun]
      show (runFiles_exp
        (sortFilesByName (files.filter (fun f => is_export_file f.name)))
        (fs1, [], 0)).1.yearFiles yr = some recs
      rw [hey] at hyf
      exact hyf

/-- Concrete single-year export batch: one file, two rows of year 2000
(the file name carries the `export` marker, so both subheading flows
process it — as exports). -/
def c9File : XFile where
  name := "2000-export-china-subpartidas.xlsx"
  rows :=
    [[Cell.s "Período", Cell.s "Código Subpartida", Cell.s "Subpartida",
      Cell.s "FOB", Cell.s "CIF", Cell.s "TM (Peso Neto)"],
     [Cell.s "2000 / 01 - Enero", Cell.s "0302.11", Cell.s "SALMONES",
      Cell.s "1000", Cell.s "1200", Cell.s "5"],
     [Cell.s "2000 / 02 - Febrero", Cell.s "0302.12", Cell.s "TRUCHAS",
      Cell.s "800", Cell.s "900", Cell.s "4"]]

theorem summary_replace_not_duplicate_witness :
    runResumen_app [c9File] Tipo.exports ≠ [] ∧
    runResumen_exp [c9File] ≠ [] ∧
    ((∃ e recs,
      (run_process_app [c9File] (run_process_app [c9File] emptyAppFS).2).2.summaries
          Tipo.exports = some [AppEntry.toJson e] ∧
      e.year = "2000" ∧
      (run_process_app [c9File] (run_process_app [c9File] emptyAppFS).2).2.yearFiles
          Tipo.exports "2000" = some recs ∧
      e.total = round2 (sumRecsKey recs
        (if Tipo.exports = Tipo.imports then "cif" else "fob"))) ∧
    (∃ e recs,
      (run_process_exp [c9File] (run_process_exp [c9File] emptyExpFS).2).2.summary =
          some [AppEntry.toJson e] ∧
      e.year = "2000" ∧
      (run_process_exp [c9File] (run_process_exp [c9File] emptyExpFS).2).2.yearFiles
          "2000" = some recs ∧
      e.total = round2 (sumRecsKey recs "fob"))) :=
  ⟨by decide, by decide,
    summary_replace_not_duplicate [c9File] emptyAppFS emptyExpFS Tipo.exports "2000"
      (by decide) (by decide) (by decide) (by decide)⟩
